import Mathlib

/-!
Verification of the streaming S3 archive/de-archive engine (the `S3Zip` class
in the zip module and the `S3Unzip` / `S3UnzipEntry` classes in
`apps/server/src/lib/tasks/s3-unzip.ts`).

The two pipelines are embedded as deterministic interpreters that thread an
abstract object-store client (a record of state-transforming functions, one
per S3 command used by the code) and record a trace of the client calls they
issue.  The JavaScript sources interleave a handful of async tasks; the
embedding fixes the canonical sequential schedule in which each awaited
operation completes before the next one starts.  All dataflow-determined
facts (which parts are uploaded, with which numbers and bodies, which
sessions are created, completed or aborted, which error a run rejects with)
are schedule-independent and are the subject of the theorems below.

Byte strings are `List Nat`.  Errors are `String`s: the engine's own `throw
new Error('...')` messages appear verbatim, and client failures carry
whatever string the client produced, so that "rejects with the originating
error" is statable as equality of propagated strings.
-/

abbrev Bytes := List Nat

/-- `CompletedPart` mirrors the `{PartNumber, ETag}` records accumulated in
`completedParts` by both pipelines and passed to
`CompleteMultipartUploadCommand`. -/
structure CompletedPart where
  partNumber : Nat
  eTag : String
deriving DecidableEq

/-- One issued object-store command, as recorded in a run's trace.  The
`limitAcquire` / `limitRelease` events mark a `p-limit` slot being taken and
freed, and `entryConsumed` marks the archiver's `entry` event resolving a
file promise (zip path). -/
inductive S3Event where
  | getObject (key : String)
  | createMultipart (key : String)
  | uploadPart (key : String) (uploadId : String) (partNumber : Nat) (body : Bytes)
  | completeMultipart (key : String) (uploadId : String) (parts : List CompletedPart)
  | abortMultipart (key : String) (uploadId : String)
  | putObject (key : String) (body : Bytes)
  | limitAcquire (name : String)
  | limitRelease (name : String)
  | entryConsumed (name : String)
deriving DecidableEq

/-- The object-store client consumed by both pipelines: one state-passing
function per S3 command the source code sends.  `getObject` may succeed
without a body (`response.Body` absent), `createMultipart` may succeed
without an `UploadId`, and `uploadPart` may succeed without an `ETag`,
because the source checks each of those cases separately. -/
structure S3Client (σ : Type) where
  getObject : σ → String → Except String (Option Bytes) × σ
  createMultipart : σ → String → Except String (Option String) × σ
  uploadPart : σ → String → String → Nat → Bytes → Except String (Option String) × σ
  completeMultipart : σ → String → String → List CompletedPart → Except String Unit × σ
  abortMultipart : σ → String → String → Except String Unit × σ
  putObject : σ → String → Bytes → Except String Unit × σ

/-- `path.basename`: the characters after the last `/` (for keys without
trailing slashes, which is the only shape the engine produces). -/
def basename (key : String) : String :=
  String.mk (key.data.foldl (fun acc c => if c = '/' then [] else acc ++ [c]) [])

/-- `outputPrefix.replace(/^\//, '')`: drop one leading slash. -/
def stripLeadingSlash (s : String) : String :=
  match s.data with
  | '/' :: rest => String.mk rest
  | _ => s

/-! ## The archive codec, modelled from the spec

Modelled from the spec: the Archive Codec (§4.1) is implemented by the
external `archiver` / `unzipper` npm libraries, which are not part of this
repository's sources.  Per the spec it is a pure, order-preserving mapping
between a list of named byte entries and one container byte stream, with
`decode` the inverse of `encode` and failing on malformed input.  The
concrete serialization below is one such mapping: a count followed by
length-prefixed (name, content) records. -/

def encodeEntry (e : String × Bytes) : Bytes :=
  (e.1.length :: e.1.data.map Char.toNat) ++ (e.2.length :: e.2)

def encode (es : List (String × Bytes)) : Bytes :=
  es.length :: (es.map encodeEntry).flatten

/-- Parse `n` length-prefixed records, requiring the input to be consumed
exactly. -/
def decodeEntries : Nat → Bytes → Option (List (String × Bytes))
  | 0, [] => some []
  | 0, _ :: _ => none
  | _ + 1, [] => none
  | n + 1, nameLen :: rest =>
    if nameLen ≤ rest.length then
      match rest.drop nameLen with
      | [] => none
      | contentLen :: rest2 =>
        if contentLen ≤ rest2.length then
          match decodeEntries n (rest2.drop contentLen) with
          | some es =>
            some ((String.mk ((rest.take nameLen).map Char.ofNat), rest2.take contentLen) :: es)
          | none => none
        else none
    else none

def decode (bs : Bytes) : Option (List (String × Bytes)) :=
  match bs with
  | [] => none
  | n :: rest => decodeEntries n rest

/-! ## An honest in-memory object store

A reference instantiation of `S3Client` implementing the documented S3
semantics: objects are an association list (most recent write first), live
multipart sessions accumulate `(partNumber, eTag, body)` triples, and
completing a session concatenates the bodies named by the supplied parts
list, in the order given, into one object. -/

def lookupKey (k : String) : List (String × α) → Option α
  | [] => none
  | (k', v) :: rest => if k' = k then some v else lookupKey k rest

def removeKey (k : String) (l : List (String × α)) : List (String × α) :=
  l.filter (fun p => p.1 ≠ k)

structure Session where
  key : String
  parts : List (Nat × String × Bytes)
deriving DecidableEq

structure Store where
  objects : List (String × Bytes)
  sessions : List (String × Session)
  nextId : Nat
deriving DecidableEq

def uidFor (n : Nat) : String := "u" ++ toString n

def etagFor (pn : Nat) : String := "e" ++ toString pn

def findPart (pn : Nat) (etag : String) : List (Nat × String × Bytes) → Option Bytes
  | [] => none
  | (pn', e', b) :: rest =>
    if pn' = pn ∧ e' = etag then some b else findPart pn etag rest

/-- Concatenate the stored bodies named by a completion request, in request
order; fail when any named part is absent. -/
def assembleParts (stored : List (Nat × String × Bytes)) : List CompletedPart → Option Bytes
  | [] => some []
  | cp :: rest =>
    match findPart cp.partNumber cp.eTag stored, assembleParts stored rest with
    | some b, some bs => some (b ++ bs)
    | _, _ => none

def honest : S3Client Store where
  getObject st k :=
    match lookupKey k st.objects with
    | none => (.error "NoSuchKey", st)
    | some b => (.ok (some b), st)
  createMultipart st k :=
    (.ok (some (uidFor st.nextId)),
      { st with sessions := (uidFor st.nextId, ⟨k, []⟩) :: st.sessions,
                nextId := st.nextId + 1 })
  uploadPart st _k uid pn body :=
    match lookupKey uid st.sessions with
    | none => (.error "NoSuchUpload", st)
    | some sess =>
      (.ok (some (etagFor pn)),
        { st with sessions :=
            (uid, ⟨sess.key, sess.parts ++ [(pn, etagFor pn, body)]⟩) :: st.sessions })
  completeMultipart st k uid partsList :=
    match lookupKey uid st.sessions with
    | none => (.error "NoSuchUpload", st)
    | some sess =>
      match assembleParts sess.parts partsList with
      | none => (.error "InvalidPart", st)
      | some body =>
        (.ok (), { st with objects := (k, body) :: st.objects,
                           sessions := removeKey uid st.sessions })
  abortMultipart st _k uid :=
    match lookupKey uid st.sessions with
    | none => (.error "NoSuchUpload", st)
    | some _ => (.ok (), { st with sessions := removeKey uid st.sessions })
  putObject st k body :=
    (.ok (), { st with objects := (k, body) :: st.objects })

/-! ## The zip pipeline (`S3Zip`)

`zipRun` is the embedding of `S3Zip.zip()`.  The run is parameterized by
`chunkify`, the (arbitrary) way the archiver's continuous output stream is
split into `data` chunks; the `PassThrough` byte sequence itself is
`encode` of the entries appended, in order.  The sequential schedule is:
create the multipart upload, download and archive every source, then drain
the encoder output through `uploadParts`, then complete. -/

structure S3ArchiverOptions where
  inputKeys : List String
  outputKey : String
  maxPartSize : Option Nat := none
  maxParallelFiles : Option Nat := none

def defaultMaxPartSize : Nat := 10 * 1024 * 1024

def defaultMaxParallelFiles : Nat := 3

structure ZipResult where
  zipFileSize : Nat
  zipFileName : String
deriving DecidableEq

/-- Outcome of one pipeline phase: client state, the trace of events the
phase emitted, and its result. -/
structure PhaseOut (σ α : Type) where
  s3 : σ
  trace : List S3Event
  res : Except String α

/-- `S3Zip.downloadFiles` / `downloadFile`: for each input key in order,
send `GetObjectCommand`; a rejected send propagates, a response without a
body silently skips the key, and otherwise the entry
`(basename key, body)` is appended to the archive, a limiter slot is taken
(after the stream was opened), held until the archiver's `entry` event for
that file, then released. -/
def downloadFiles (c : S3Client σ) : List String → σ → PhaseOut σ (List (String × Bytes))
  | [], st => ⟨st, [], .ok []⟩
  | k :: ks, st =>
    match c.getObject st k with
    | (.error e, st1) => ⟨st1, [.getObject k], .error e⟩
    | (.ok none, st1) =>
      let out := downloadFiles c ks st1
      ⟨out.s3, .getObject k :: out.trace, out.res⟩
    | (.ok (some body), st1) =>
      let n := basename k
      let out := downloadFiles c ks st1
      ⟨out.s3,
        .getObject k :: .limitAcquire n :: .entryConsumed n :: .limitRelease n :: out.trace,
        out.res.map (fun es => (n, body) :: es)⟩

/-- Multipart bookkeeping shared by `S3Zip`: `uploadId`, the next part
number (starting at 1) and the accumulated completed parts. -/
structure Mpu where
  uploadId : Option String
  partNumber : Nat
  completedParts : List CompletedPart
deriving DecidableEq

/-- `S3Zip.uploadPart`: take the next part number (incremented before the
send, as in `this.partNumber++`), send the buffer, and record the completed
part on success; a missing `uploadId` or `ETag` raises the corresponding
`Error`. -/
def zipSendPart (c : S3Client σ) (key : String) (st : σ) (m : Mpu) (body : Bytes) :
    σ × List S3Event × Mpu × Except String Unit :=
  match m.uploadId with
  | none => (st, [], m, .error "No upload ID")
  | some uid =>
    let pn := m.partNumber
    match c.uploadPart st key uid pn body with
    | (.error e, st1) =>
      (st1, [.uploadPart key uid pn body], { m with partNumber := pn + 1 }, .error e)
    | (.ok none, st1) =>
      (st1, [.uploadPart key uid pn body], { m with partNumber := pn + 1 },
        .error "Failed to upload part")
    | (.ok (some etag), st1) =>
      (st1, [.uploadPart key uid pn body],
        ⟨some uid, pn + 1, m.completedParts ++ [⟨pn, etag⟩]⟩, .ok ())

structure PartsOut (σ : Type) where
  s3 : σ
  trace : List S3Event
  mpu : Mpu
  size : Nat
  res : Except String Unit

/-- `S3Zip.uploadParts` together with the `passThrough` `data` handler:
accumulate chunks into a buffer, counting every chunk's length into
`zipFileSize`; whenever the buffer reaches `maxPartSize`, upload it whole
as the next part and clear it; after the stream ends upload any non-empty
remainder. -/
def uploadParts (c : S3Client σ) (key : String) (maxPartSize : Nat) :
    List Bytes → Bytes → σ → Mpu → Nat → PartsOut σ
  | [], buffer, st, m, size =>
    if buffer.length > 0 then
      let (st1, ev, m1, r) := zipSendPart c key st m buffer
      ⟨st1, ev, m1, size, r⟩
    else ⟨st, [], m, size, .ok ()⟩
  | chunk :: cs, buffer, st, m, size =>
    let buf := buffer ++ chunk
    let sz := size + chunk.length
    if buf.length ≥ maxPartSize then
      match zipSendPart c key st m buf with
      | (st1, ev, m1, .error e) => ⟨st1, ev, m1, sz, .error e⟩
      | (st1, ev, m1, .ok ()) =>
        let out := uploadParts c key maxPartSize cs [] st1 m1 sz
        ⟨out.s3, ev ++ out.trace, out.mpu, out.size, out.res⟩
    else
      uploadParts c key maxPartSize cs buf st m sz

/-- `S3Zip.cancel`, as reached from `zip()`'s catch block: abort the
multipart upload when one was created.  The abort send is **not** wrapped in
a try/catch, so when it rejects its error replaces the original one;
otherwise the original error is re-thrown.  (Rejecting the pending file
promises has no object-store effect.) -/
def zipCancel (c : S3Client σ) (key : String) (uploadId : Option String) (st : σ)
    (orig : String) : σ × List S3Event × String :=
  match uploadId with
  | none => (st, [], orig)
  | some uid =>
    match c.abortMultipart st key uid with
    | (.error e, st1) => (st1, [.abortMultipart key uid], e)
    | (.ok (), st1) => (st1, [.abortMultipart key uid], orig)

/-- `S3Zip.zip()`: create the multipart upload eagerly, download/archive all
inputs, drain the encoder output into parts, complete the upload, and on
any error run `cancel` and reject. -/
def zipRun (c : S3Client σ) (chunkify : Bytes → List Bytes) (opts : S3ArchiverOptions)
    (st0 : σ) : PhaseOut σ ZipResult :=
  let key := opts.outputKey
  let maxPS := opts.maxPartSize.getD defaultMaxPartSize
  match c.createMultipart st0 key with
  | (.error e, st1) =>
    let (st2, tr, e') := zipCancel c key none st1 e
    ⟨st2, .createMultipart key :: tr, .error e'⟩
  | (.ok none, st1) =>
    let (st2, tr, e') := zipCancel c key none st1 "Failed to create multipart upload"
    ⟨st2, .createMultipart key :: tr, .error e'⟩
  | (.ok (some uid), st1) =>
    let dl := downloadFiles c opts.inputKeys st1
    match dl.res with
    | .error e =>
      let (st2, tr, e') := zipCancel c key (some uid) dl.s3 e
      ⟨st2, .createMultipart key :: (dl.trace ++ tr), .error e'⟩
    | .ok entries =>
      let chunks := chunkify (encode entries)
      let up := uploadParts c key maxPS chunks [] dl.s3 ⟨some uid, 1, []⟩ 0
      match up.res with
      | .error e =>
        let (st2, tr, e') := zipCancel c key (some uid) up.s3 e
        ⟨st2, .createMultipart key :: (dl.trace ++ (up.trace ++ tr)), .error e'⟩
      | .ok () =>
        match c.completeMultipart up.s3 key uid up.mpu.completedParts with
        | (.error e, st2) =>
          let (st3, tr, e') := zipCancel c key (some uid) st2 e
          ⟨st3, .createMultipart key :: (dl.trace ++ (up.trace ++
            (.completeMultipart key uid up.mpu.completedParts :: tr))), .error e'⟩
        | (.ok (), st2) =>
          ⟨st2, .createMultipart key :: (dl.trace ++ (up.trace ++
            [.completeMultipart key uid up.mpu.completedParts])),
            .ok ⟨up.size, basename key⟩⟩

/-! ## The unzip pipeline (`S3Unzip` / `S3UnzipEntry`)

`unzipRun` embeds `S3Unzip.unzip()`.  The compressed source object is
decoded with the modelled codec; each decoded entry is processed by the
embedding of `S3UnzipEntry.upload()`, again over an arbitrary chunking of
the entry's bytes.  The sequential schedule runs each entry's upload to
completion before the next entry is parsed. -/

structure S3UnzipOptions where
  inputKey : String
  outputRoot : String
  maxPartSize : Option Nat := none
  maxParallelFiles : Option Nat := none

structure UnzipResult where
  outputKeys : List String
  extractedBytes : Nat
deriving DecidableEq

/-- Per-entry writer state of `S3UnzipEntry`. -/
structure EntrySt where
  totalBytes : Nat
  buffer : Bytes
  uploadId : Option String
  completedParts : List CompletedPart
  partNumber : Nat
deriving DecidableEq

/-- `S3UnzipEntry.uploadPart`: capture and clear the buffer, send it under
the current part number, and on success record the completed part and only
then increment the part number. -/
def entrySendPart (c : S3Client σ) (key uid : String) (st : σ) (es : EntrySt) :
    σ × List S3Event × EntrySt × Except String Unit :=
  let body := es.buffer
  let es0 := { es with buffer := [] }
  match c.uploadPart st key uid es0.partNumber body with
  | (.error e, st1) => (st1, [.uploadPart key uid es0.partNumber body], es0, .error e)
  | (.ok none, st1) =>
    (st1, [.uploadPart key uid es0.partNumber body], es0, .error "Failed to upload part")
  | (.ok (some etag), st1) =>
    (st1, [.uploadPart key uid es0.partNumber body],
      { es0 with completedParts := es0.completedParts ++ [⟨es0.partNumber, etag⟩],
                 partNumber := es0.partNumber + 1 }, .ok ())

/-- The threshold body of `S3UnzipEntry.upload`'s loop: create the
multipart upload on first need, then upload the buffered bytes as one
part. -/
def entryFlush (c : S3Client σ) (key : String) (st : σ) (es : EntrySt) :
    σ × List S3Event × EntrySt × Except String Unit :=
  match es.uploadId with
  | some uid => entrySendPart c key uid st es
  | none =>
    match c.createMultipart st key with
    | (.error e, st1) => (st1, [.createMultipart key], es, .error e)
    | (.ok none, st1) =>
      (st1, [.createMultipart key], es, .error "Could not create multipart upload")
    | (.ok (some uid), st1) =>
      let es1 := { es with uploadId := some uid }
      let (st2, ev2, es2, r2) := entrySendPart c key uid st1 es1
      (st2, .createMultipart key :: ev2, es2, r2)

/-- The `for await (const chunk of this.entry)` loop of
`S3UnzipEntry.upload`: count and buffer each chunk, flushing whenever the
buffer has reached `maxPartSize`. -/
def entryLoop (c : S3Client σ) (key : String) (maxPartSize : Nat) :
    List Bytes → σ → EntrySt → σ × List S3Event × EntrySt × Except String Unit
  | [], st, es => (st, [], es, .ok ())
  | chunk :: cs, st, es =>
    let es1 := { es with totalBytes := es.totalBytes + chunk.length,
                         buffer := es.buffer ++ chunk }
    if es1.buffer.length ≥ maxPartSize then
      match entryFlush c key st es1 with
      | (st1, ev, es2, .error e) => (st1, ev, es2, .error e)
      | (st1, ev, es2, .ok ()) =>
        let (st2, ev2, es3, r2) := entryLoop c key maxPartSize cs st1 es2
        (st2, ev ++ ev2, es3, r2)
    else
      entryLoop c key maxPartSize cs st es1

/-- `S3UnzipEntry.cancel` as invoked from `upload()`'s own catch block:
abort the entry's session if one exists.  The call is **not** wrapped in a
try/catch there, so a rejected abort replaces the original error. -/
def entryCancel (c : S3Client σ) (key : String) (uploadId : Option String) (st : σ)
    (orig : String) : σ × List S3Event × String :=
  match uploadId with
  | none => (st, [], orig)
  | some uid =>
    match c.abortMultipart st key uid with
    | (.error e, st1) => (st1, [.abortMultipart key uid], e)
    | (.ok (), st1) => (st1, [.abortMultipart key uid], orig)

/-- Result of one entry upload; `uploadId` is the session the entry owned
at the end (kept by `S3Unzip` for job-level cancellation), and a successful
result carries the entry's `totalBytes`. -/
structure EntryOut (σ : Type) where
  s3 : σ
  trace : List S3Event
  uploadId : Option String
  res : Except String Nat

/-- The tail of `S3UnzipEntry.upload` after the chunk loop: flush a
non-empty remainder (as a final part if a session exists, else as one
direct `PutObjectCommand`), then complete the session if one exists. -/
def entryFinish (c : S3Client σ) (key : String) (st : σ) (es : EntrySt) : EntryOut σ :=
  match es.buffer, es.uploadId with
  | [], none => ⟨st, [], none, .ok es.totalBytes⟩
  | [], some uid =>
    match c.completeMultipart st key uid es.completedParts with
    | (.error e, st1) =>
      let (st2, ev2, e') := entryCancel c key (some uid) st1 e
      ⟨st2, .completeMultipart key uid es.completedParts :: ev2, some uid, .error e'⟩
    | (.ok (), st1) =>
      ⟨st1, [.completeMultipart key uid es.completedParts], some uid, .ok es.totalBytes⟩
  | b :: bs, none =>
    match c.putObject st key (b :: bs) with
    | (.error e, st1) => ⟨st1, [.putObject key (b :: bs)], none, .error e⟩
    | (.ok (), st1) => ⟨st1, [.putObject key (b :: bs)], none, .ok es.totalBytes⟩
  | _ :: _, some uid =>
    match entrySendPart c key uid st es with
    | (st1, ev, _es1, .error e) =>
      let (st2, ev2, e') := entryCancel c key (some uid) st1 e
      ⟨st2, ev ++ ev2, some uid, .error e'⟩
    | (st1, ev, es1, .ok ()) =>
      match c.completeMultipart st1 key uid es1.completedParts with
      | (.error e, st2) =>
        let (st3, ev3, e') := entryCancel c key (some uid) st2 e
        ⟨st3, ev ++ (.completeMultipart key uid es1.completedParts :: ev3), some uid, .error e'⟩
      | (.ok (), st2) =>
        ⟨st2, ev ++ [.completeMultipart key uid es1.completedParts], some uid,
          .ok es.totalBytes⟩

/-- `S3UnzipEntry.upload`: run the chunk loop, then the remainder/complete
tail; any error runs the entry's own (unshielded) `cancel` and rejects. -/
def entryUpload (c : S3Client σ) (key : String) (maxPartSize : Nat) (chunks : List Bytes)
    (st : σ) : EntryOut σ :=
  match entryLoop c key maxPartSize chunks st ⟨0, [], none, [], 1⟩ with
  | (st1, ev1, es1, .error e) =>
    let (st2, ev2, e') := entryCancel c key es1.uploadId st1 e
    ⟨st2, ev1 ++ ev2, es1.uploadId, .error e'⟩
  | (st1, ev1, es1, .ok ()) =>
    let fin := entryFinish c key st1 es1
    ⟨fin.s3, ev1 ++ fin.trace, fin.uploadId, fin.res⟩

/-- The entry iteration of `S3Unzip.unzip()`: for each decoded entry, take
a limiter slot, run the entry upload, and on success accumulate its output
key and byte count.  `ents` collects `(outputKey, uploadId)` for every
entry object created, mirroring `this.entries`. -/
def unzipEntries (c : S3Client σ) (chunkify : Bytes → List Bytes) (outputRoot : String)
    (maxPartSize : Nat) :
    List (String × Bytes) → σ → List (String × Option String) → List String → Nat →
    σ × List S3Event × List (String × Option String) × Except String (List String × Nat)
  | [], st, ents, keys, total => (st, [], ents, .ok (keys, total))
  | (p, content) :: rest, st, ents, keys, total =>
    let key := outputRoot ++ "/" ++ p
    let eo := entryUpload c key maxPartSize (chunkify content) st
    match eo.res with
    | .error e => (eo.s3, .limitAcquire key :: eo.trace, ents ++ [(key, eo.uploadId)], .error e)
    | .ok bytes =>
      let (st2, tr2, ents2, r2) :=
        unzipEntries c chunkify outputRoot maxPartSize rest eo.s3
          (ents ++ [(key, eo.uploadId)]) (keys ++ [key]) (total + bytes)
      (st2, .limitAcquire key :: (eo.trace ++ (.limitRelease key :: tr2)), ents2, r2)

/-- `S3Unzip.cancel`: abort every entry's session, each abort wrapped in a
try/catch whose failures are only logged — the job-level cleanup never
raises. -/
def unzipCancel (c : S3Client σ) : List (String × Option String) → σ → σ × List S3Event
  | [], st => (st, [])
  | (_, none) :: rest, st => unzipCancel c rest st
  | (key, some uid) :: rest, st =>
    let (_, st1) := c.abortMultipart st key uid
    let (st2, tr2) := unzipCancel c rest st1
    (st2, .abortMultipart key uid :: tr2)

/-- `S3Unzip.unzip()`: fetch the archive object, decode it, process every
entry, and on any error run the (shielded) job-level `cancel` and reject
with the error that was caught. -/
def unzipRun (c : S3Client σ) (chunkify : Bytes → List Bytes) (opts : S3UnzipOptions)
    (st0 : σ) : PhaseOut σ UnzipResult :=
  let root := stripLeadingSlash opts.outputRoot
  let maxPS := opts.maxPartSize.getD defaultMaxPartSize
  match c.getObject st0 opts.inputKey with
  | (.error e, st1) => ⟨st1, [.getObject opts.inputKey], .error e⟩
  | (.ok none, st1) =>
    ⟨st1, [.getObject opts.inputKey], .error "Could not obtain a stream for the zip file"⟩
  | (.ok (some body), st1) =>
    match decode body with
    | none => ⟨st1, [.getObject opts.inputKey], .error "CorruptArchive"⟩
    | some entries =>
      let (st2, tr2, ents, r2) := unzipEntries c chunkify root maxPS entries st1 [] [] 0
      match r2 with
      | .error e =>
        let (st3, tr3) := unzipCancel c ents st2
        ⟨st3, .getObject opts.inputKey :: (tr2 ++ tr3), .error e⟩
      | .ok (keys, total) =>
        ⟨st2, .getObject opts.inputKey :: tr2, .ok ⟨keys, total⟩⟩

/-! ## Trace analysis helpers -/

/-- The part numbers of the `uploadPart` commands sent for a given
`uploadId`, in the order they were sent. -/
def partNumsFor (uid : String) : List S3Event → List Nat
  | [] => []
  | .uploadPart _ u pn _ :: r =>
    if u = uid then pn :: partNumsFor uid r else partNumsFor uid r
  | _ :: r => partNumsFor uid r

/-- The bodies of the `uploadPart` commands sent for a given `uploadId`, in
the order they were sent. -/
def partBodiesFor (uid : String) : List S3Event → List Bytes
  | [] => []
  | .uploadPart _ u _ b :: r =>
    if u = uid then b :: partBodiesFor uid r else partBodiesFor uid r
  | _ :: r => partBodiesFor uid r

/-- Total number of bytes handed to the object store by a trace, counting
every part body and every direct object body. -/
def writtenBytes : List S3Event → Nat
  | [] => 0
  | .uploadPart _ _ _ b :: r => b.length + writtenBytes r
  | .putObject _ b :: r => b.length + writtenBytes r
  | _ :: r => writtenBytes r

/-- Every `completeMultipartUpload` call in the trace carries part numbers
that are exactly the contiguous run `1..N`, in order. -/
def partsContig (tr : List S3Event) : Prop :=
  ∀ k uid ps, S3Event.completeMultipart k uid ps ∈ tr →
    ps.map (fun cp => cp.partNumber) = List.range' 1 ps.length

def isPut : S3Event → Bool
  | .putObject _ _ => true
  | _ => false

def isUpload : S3Event → Bool
  | .uploadPart _ _ _ _ => true
  | _ => false

def isCreate : S3Event → Bool
  | .createMultipart _ => true
  | _ => false

def isComplete : S3Event → Bool
  | .completeMultipart _ _ _ => true
  | _ => false

def isAbortFor (uid : String) : S3Event → Bool
  | .abortMultipart _ u => u = uid
  | _ => false

/-- Run the limiter in-flight counter over a trace, starting from `n`
slots taken. -/
def flight : Nat → List S3Event → Nat
  | n, [] => n
  | n, .limitAcquire _ :: r => flight (n + 1) r
  | n, .limitRelease _ :: r => flight (n - 1) r
  | n, _ :: r => flight n r

/-- `limOk n tr` holds when, starting from `n` slots taken, every
`limitAcquire` in `tr` happens while no slot is taken — i.e. the limiter's
in-flight count never exceeds 1 (and hence never exceeds any configured
maximum ≥ 1). -/
def limOk : Nat → List S3Event → Bool
  | _, [] => true
  | n, .limitAcquire _ :: r => decide (n = 0) && limOk (n + 1) r
  | n, .limitRelease _ :: r => limOk (n - 1) r
  | n, _ :: r => limOk n r

/-- Events that do not touch the limiter. -/
def limFree : S3Event → Bool
  | .limitAcquire _ => false
  | .limitRelease _ => false
  | _ => true

/-- The per-source event block of the zip download phase when the source's
read succeeds with a body: the remote read is opened first, and only then
is the limiter slot taken, held until the archiver has consumed the
entry. -/
def downloadSeg (k : String) : List S3Event :=
  [.getObject k, .limitAcquire (basename k), .entryConsumed (basename k),
   .limitRelease (basename k)]

/-- The multipart-session invariant of both pipelines: the next part number
is one past the number of completed parts, whose recorded numbers are
exactly `1..N` in order. -/
def mpuInv (uid : String) (m : Mpu) : Prop :=
  m.uploadId = some uid ∧ m.partNumber = m.completedParts.length + 1 ∧
  m.completedParts.map (fun cp => cp.partNumber) = List.range' 1 m.completedParts.length

/-- The per-entry analogue of `mpuInv` for the unzip writer state. -/
def entryInv (es : EntrySt) : Prop :=
  es.partNumber = es.completedParts.length + 1 ∧
  es.completedParts.map (fun cp => cp.partNumber) = List.range' 1 es.completedParts.length

/-- Before a session exists the writer has made no uploads. -/
def entryFresh (es : EntrySt) : Prop :=
  es.uploadId = none → es.partNumber = 1 ∧ es.completedParts = []

/-- The part number the next upload for `uid` would carry, as a function of
the writer state: the current counter for the owned session, 1 for a
session not yet created. -/
def entryStart (es : EntrySt) (uid : String) : Nat :=
  if es.uploadId = some uid then es.partNumber else 1

/-! ## Concrete scenarios

Clients, stores and jobs used to evaluate the pipelines at specific
inputs. -/

/-- The archiver delivering its whole output as one `data` chunk. -/
def oneChunk : Bytes → List Bytes := fun bs => [bs]

/-- The archiver delivering its output byte by byte. -/
def byteChunks : Bytes → List Bytes := fun bs => bs.map (fun b => [b])

def storeAB : Store := ⟨[("dir/a", [1, 2, 3]), ("dir/b", [4, 5])], [], 0⟩

def zipOptsAB : S3ArchiverOptions :=
  { inputKeys := ["dir/a", "dir/b"], outputKey := "out/archive.zip" }

def zipRunAB : PhaseOut Store ZipResult := zipRun honest oneChunk zipOptsAB storeAB

def unzipRunAB : PhaseOut Store UnzipResult :=
  unzipRun honest oneChunk { inputKey := "out/archive.zip", outputRoot := "ex" } zipRunAB.s3

/-- A client whose source reads fail and whose aborts also fail. -/
def readAbortFailClient : S3Client Unit where
  getObject st _ := (.error "read boom", st)
  createMultipart st _ := (.ok (some "u0"), st)
  uploadPart st _ _ _ _ := (.ok (some "e1"), st)
  completeMultipart st _ _ _ := (.ok (), st)
  abortMultipart st _ _ := (.error "abort boom", st)
  putObject st _ _ := (.ok (), st)

def zipReadAbortFail : PhaseOut Unit ZipResult :=
  zipRun readAbortFailClient oneChunk { inputKeys := ["k"], outputKey := "o.zip" } ()

/-- A client whose source reads fail but whose aborts succeed. -/
def readFailClient : S3Client Unit where
  getObject st _ := (.error "read boom", st)
  createMultipart st _ := (.ok (some "u0"), st)
  uploadPart st _ _ _ _ := (.ok (some "e1"), st)
  completeMultipart st _ _ _ := (.ok (), st)
  abortMultipart st _ _ := (.ok (), st)
  putObject st _ _ := (.ok (), st)

def zipReadFail : PhaseOut Unit ZipResult :=
  zipRun readFailClient oneChunk { inputKeys := ["k"], outputKey := "o.zip" } ()

/-- A client serving a one-entry archive whose part uploads fail and whose
aborts also fail. -/
def partAbortFailClient : S3Client Unit where
  getObject st _ := (.ok (some (encode [("f", [1, 2, 3])])), st)
  createMultipart st _ := (.ok (some "u0"), st)
  uploadPart st _ _ _ _ := (.error "part boom", st)
  completeMultipart st _ _ _ := (.ok (), st)
  abortMultipart st _ _ := (.error "abort boom", st)
  putObject st _ _ := (.ok (), st)

def unzipPartAbortFail : PhaseOut Unit UnzipResult :=
  unzipRun partAbortFailClient oneChunk
    { inputKey := "in.zip", outputRoot := "ex", maxPartSize := some 2 } ()

/-- A client serving a one-entry archive whose part uploads fail but whose
aborts succeed. -/
def partFailClient : S3Client Unit where
  getObject st _ := (.ok (some (encode [("f", [1, 2, 3])])), st)
  createMultipart st _ := (.ok (some "u0"), st)
  uploadPart st _ _ _ _ := (.error "part boom", st)
  completeMultipart st _ _ _ := (.ok (), st)
  abortMultipart st _ _ := (.ok (), st)
  putObject st _ _ := (.ok (), st)

def unzipPartFail : PhaseOut Unit UnzipResult :=
  unzipRun partFailClient oneChunk
    { inputKey := "in.zip", outputRoot := "ex", maxPartSize := some 2 } ()

/-- The honest store client except that every read succeeds without a
body (`response.Body` absent). -/
def noBodyClient : S3Client Store :=
  { honest with getObject := fun st _ => (.ok none, st) }

def zipGhost : PhaseOut Store ZipResult :=
  zipRun noBodyClient oneChunk { inputKeys := ["ghost"], outputKey := "o.zip" } ⟨[], [], 0⟩

/-- A client that serves the same small body for every read and accepts
every write. -/
def readOkClient : S3Client Unit where
  getObject st _ := (.ok (some [1, 2]), st)
  createMultipart st _ := (.ok (some "u0"), st)
  uploadPart st _ _ _ _ := (.ok (some "e1"), st)
  completeMultipart st _ _ _ := (.ok (), st)
  abortMultipart st _ _ := (.ok (), st)
  putObject st _ _ := (.ok (), st)

def storeDup : Store := ⟨[("a/x", [1]), ("b/x", [2])], [], 0⟩

def zipDup : PhaseOut Store ZipResult :=
  zipRun honest oneChunk { inputKeys := ["a/x", "b/x"], outputKey := "o.zip" } storeDup

def unzipDup : PhaseOut Store UnzipResult :=
  unzipRun honest oneChunk { inputKey := "o.zip", outputRoot := "out" } zipDup.s3

def storeZ8 : Store := ⟨[("a.zip", encode [("f", [7, 8])])], [], 0⟩

def unzipExact : PhaseOut Store UnzipResult :=
  unzipRun honest oneChunk { inputKey := "a.zip", outputRoot := "ex", maxPartSize := some 2 }
    storeZ8

def storeBig : Store := ⟨[("f", [1, 2, 3])], [], 0⟩

def zipBigPart : PhaseOut Store ZipResult :=
  zipRun honest oneChunk { inputKeys := ["f"], outputKey := "o.zip", maxPartSize := some 2 }
    storeBig

def zipManyParts : PhaseOut Store ZipResult :=
  zipRun honest byteChunks { inputKeys := ["f"], outputKey := "o.zip", maxPartSize := some 2 }
    storeBig

def storeE : Store := ⟨[("a/e", [])], [], 0⟩

def zipE : PhaseOut Store ZipResult :=
  zipRun honest oneChunk { inputKeys := ["a/e"], outputKey := "e.zip" } storeE

def unzipE : PhaseOut Store UnzipResult :=
  unzipRun honest oneChunk { inputKey := "e.zip", outputRoot := "out" } zipE.s3

/-! # Theorems -/

theorem decodeEntries_encode (es : List (String × Bytes)) :
    decodeEntries es.length (es.map encodeEntry).flatten = some es := by
  induction es with
  | nil => rfl
  | cons e es ih =>
    obtain ⟨name, content⟩ := e
    have hname : name.length = (name.data.map Char.toNat).length := by
      rw [List.length_map]; rfl
    show decodeEntries (es.length + 1)
      (((name.length :: name.data.map Char.toNat) ++ (content.length :: content)) ++
        (es.map encodeEntry).flatten) = _
    rw [List.append_assoc, List.cons_append, decodeEntries]
    have hlen1 : name.length ≤ ((name.data.map Char.toNat) ++
        ((content.length :: content) ++ (es.map encodeEntry).flatten)).length := by
      rw [List.length_append]
      omega
    rw [if_pos hlen1]
    have htake1 : ((name.data.map Char.toNat) ++
        ((content.length :: content) ++ (es.map encodeEntry).flatten)).take name.length
        = name.data.map Char.toNat := by
      rw [hname, List.take_left]
    have hdrop1 : ((name.data.map Char.toNat) ++
        ((content.length :: content) ++ (es.map encodeEntry).flatten)).drop name.length
        = (content.length :: content) ++ (es.map encodeEntry).flatten := by
      rw [hname, List.drop_left]
    rw [htake1, hdrop1]
    simp only [List.cons_append]
    have hlen2 : content.length ≤ (content ++ (es.map encodeEntry).flatten).length := by
      rw [List.length_append]; omega
    rw [if_pos hlen2]
    have htake2 : (content ++ (es.map encodeEntry).flatten).take content.length = content :=
      List.take_left content _
    have hdrop2 : (content ++ (es.map encodeEntry).flatten).drop content.length =
        (es.map encodeEntry).flatten :=
      List.drop_left content _
    rw [htake2, hdrop2, ih]
    have hnm : String.mk ((name.data.map Char.toNat).map Char.ofNat) = name := by
      rw [List.map_map]
      have hcomp : (Char.ofNat ∘ Char.toNat) = id := by
        funext c
        simp [Function.comp, Char.ofNat_toNat]
      rw [hcomp, List.map_id]
    rw [hnm]

/-- The modelled codec is lossless: decoding an encoded archive yields the
original entry list. -/
theorem decode_encode (es : List (String × Bytes)) : decode (encode es) = some es := by
  simpa [decode, encode] using decodeEntries_encode es

/-! ## Phase lemmas: which events each phase emits -/

theorem downloadFiles_no_put (c : S3Client σ) (ks : List String) (st : σ) :
    ∀ e ∈ (downloadFiles c ks st).trace, isPut e = false := by
  induction ks generalizing st with
  | nil => intro e he; simp [downloadFiles] at he
  | cons k ks ih =>
    intro e he
    simp only [downloadFiles] at he
    rcases hg : c.getObject st k with ⟨r, st1⟩
    rw [hg] at he
    match r with
    | .error e' => simp at he; simp [he, isPut]
    | .ok none =>
      simp at he
      rcases he with h | h
      · simp [h, isPut]
      · exact ih st1 e h
    | .ok (some body) =>
      simp at he
      rcases he with h | h | h | h | h
      all_goals try simp [h, isPut]
      exact ih st1 e h

theorem zipSendPart_no_put (c : S3Client σ) (key : String) (st : σ) (m : Mpu)
    (body : Bytes) :
    ∀ e ∈ (zipSendPart c key st m body).2.1, isPut e = false := by
  intro e he
  simp only [zipSendPart] at he
  split at he
  · simp at he
  · split at he <;> simp at he <;> simp [he, isPut]

theorem uploadParts_no_put (c : S3Client σ) (key : String) (mx : Nat) (cs : List Bytes)
    (buf : Bytes) (st : σ) (m : Mpu) (sz : Nat) :
    ∀ e ∈ (uploadParts c key mx cs buf st m sz).trace, isPut e = false := by
  induction cs generalizing buf st m sz with
  | nil =>
    intro e he
    simp only [uploadParts] at he
    split at he
    · rcases hsp : zipSendPart c key st m buf with ⟨st1, ev, m1, r⟩
      rw [hsp] at he
      have := zipSendPart_no_put c key st m buf e
      rw [hsp] at this
      exact this he
    · simp at he
  | cons chunk cs ih =>
    intro e he
    simp only [uploadParts] at he
    split at he
    · have hnp := zipSendPart_no_put c key st m (buf ++ chunk) e
      split at he
      · next hsp =>
        rw [hsp] at hnp
        simp at he
        exact hnp he
      · next hsp =>
        rw [hsp] at hnp
        simp at he
        rcases he with h | h
        · exact hnp h
        · exact ih [] _ _ _ e h
    · exact ih (buf ++ chunk) st m _ e he

theorem zipCancel_no_put (c : S3Client σ) (key : String) (u : Option String) (st : σ)
    (orig : String) : ∀ e ∈ (zipCancel c key u st orig).2.1, isPut e = false := by
  intro e he
  match u with
  | none => simp [zipCancel] at he
  | some uid =>
    simp only [zipCancel] at he
    rcases ha : c.abortMultipart st key uid with ⟨ra, sta⟩
    rw [ha] at he
    match ra with
    | .error e' => simp at he; simp [he, isPut]
    | .ok () => simp at he; simp [he, isPut]

/-! ## C3: session creation on the zip path -/

/-- C3 counterexample: in a successful zip run whose whole compressed
archive (12 bytes) is far smaller than one part, the multipart session is
still created — eagerly, as the very first client call, before any byte
was produced — and the result is persisted through a one-part
multipart upload, with no direct object write anywhere in the run.  This
contradicts the claim that the session is created lazily on first
threshold crossing and that a sub-part archive is persisted with a single
direct write. -/
theorem c3_counterexample :
    zipRunAB.trace.head? = some (S3Event.createMultipart "out/archive.zip") ∧
    zipRunAB.res = .ok ⟨12, "archive.zip"⟩ ∧
    12 < defaultMaxPartSize ∧
    zipRunAB.trace.any isPut = false ∧
    S3Event.completeMultipart "out/archive.zip" "u0"
      [⟨1, "e1"⟩] ∈ zipRunAB.trace := by
  refine ⟨by decide, rfl, by decide, by decide, by decide⟩

/-! ## C6: limiter ordering and bounds -/

theorem limOk_append (a b : List S3Event) (n : Nat) :
    limOk n (a ++ b) = (limOk n a && limOk (flight n a) b) := by
  induction a generalizing n with
  | nil => simp [limOk, flight]
  | cons e a ih =>
    cases e <;> simp [limOk, flight, ih, Bool.and_assoc]

theorem limFree_limOk (tr : List S3Event) :
    ∀ n, tr.all limFree = true → limOk n tr = true ∧ flight n tr = n := by
  induction tr with
  | nil => intro n _; simp [limOk, flight]
  | cons e tr ih =>
    intro n h
    rw [List.all_cons, Bool.and_eq_true] at h
    obtain ⟨h1, h2⟩ := h
    cases e
    case limitAcquire => simp [limFree] at h1
    case limitRelease => simp [limFree] at h1
    all_goals simp [limOk, flight, ih _ h2]

theorem downloadFiles_balanced (c : S3Client σ) (ks : List String) (st : σ) :
    limOk 0 (downloadFiles c ks st).trace = true ∧
    flight 0 (downloadFiles c ks st).trace = 0 := by
  induction ks generalizing st with
  | nil => simp [downloadFiles, limOk, flight]
  | cons k ks ih =>
    simp only [downloadFiles]
    rcases hg : c.getObject st k with ⟨r, st1⟩
    match r with
    | .error e => simp [limOk, flight]
    | .ok none => simpa [limOk, flight] using ih st1
    | .ok (some b) => simpa [limOk, flight] using ih st1

theorem zipSendPart_limFree (c : S3Client σ) (key : String) (st : σ) (m : Mpu)
    (body : Bytes) : (zipSendPart c key st m body).2.1.all limFree = true := by
  simp only [zipSendPart]
  split
  · simp
  · split <;> simp [limFree]

theorem uploadParts_limFree (c : S3Client σ) (key : String) (mx : Nat) (cs : List Bytes)
    (buf : Bytes) (st : σ) (m : Mpu) (sz : Nat) :
    (uploadParts c key mx cs buf st m sz).trace.all limFree = true := by
  induction cs generalizing buf st m sz with
  | nil =>
    simp only [uploadParts]
    split
    · rcases hsp : zipSendPart c key st m buf with ⟨st1, ev, m1, r⟩
      have := zipSendPart_limFree c key st m buf
      rw [hsp] at this
      simpa using this
    · simp
  | cons chunk cs ih =>
    simp only [uploadParts]
    split
    · have hsl := zipSendPart_limFree c key st m (buf ++ chunk)
      split
      · next hsp => rw [hsp] at hsl; simpa using hsl
      · next hsp =>
        rw [hsp] at hsl
        simp only [PartsOut.trace] at *
        simp [List.all_append]
        exact ⟨by simpa using hsl, by simpa using ih [] _ _ _⟩
    · exact ih (buf ++ chunk) st m _

theorem zipCancel_limFree (c : S3Client σ) (key : String) (u : Option String) (st : σ)
    (orig : String) : (zipCancel c key u st orig).2.1.all limFree = true := by
  match u with
  | none => simp [zipCancel]
  | some uid =>
    simp only [zipCancel]
    rcases ha : c.abortMultipart st key uid with ⟨ra, sta⟩
    match ra with
    | .error e => simp [limFree]
    | .ok () => simp [limFree]

theorem entrySendPart_limFree (c : S3Client σ) (key uid : String) (st : σ) (es : EntrySt) :
    (entrySendPart c key uid st es).2.1.all limFree = true := by
  simp only [entrySendPart]
  split <;> simp [limFree]

theorem entryFlush_limFree (c : S3Client σ) (key : String) (st : σ) (es : EntrySt) :
    (entryFlush c key st es).2.1.all limFree = true := by
  rcases hu : es.uploadId with _ | uid
  · simp only [entryFlush, hu]
    rcases hcr : c.createMultipart st key with ⟨r, st1⟩
    match r with
    | .error e => simp [limFree]
    | .ok none => simp [limFree]
    | .ok (some uid) =>
      have hsl := entrySendPart_limFree c key uid st1 { es with uploadId := some uid }
      rcases hsp : entrySendPart c key uid st1 { es with uploadId := some uid }
        with ⟨st2, ev2, es2, r2⟩
      rw [hsp] at hsl
      simp only [hsp]
      simp only at hsl
      rw [List.all_cons, hsl]
      simp [limFree]
  · simp only [entryFlush, hu]
    exact entrySendPart_limFree c key uid st es

theorem entryLoop_limFree (c : S3Client σ) (key : String) (mx : Nat) (cs : List Bytes)
    (st : σ) (es : EntrySt) :
    (entryLoop c key mx cs st es).2.1.all limFree = true := by
  induction cs generalizing st es with
  | nil => simp [entryLoop]
  | cons chunk cs ih =>
    simp only [entryLoop]
    split
    · have hfl := entryFlush_limFree c key st
        { es with totalBytes := es.totalBytes + chunk.length, buffer := es.buffer ++ chunk }
      rcases hsp : entryFlush c key st
          { es with totalBytes := es.totalBytes + chunk.length, buffer := es.buffer ++ chunk }
        with ⟨st1, ev, es2, r⟩
      rw [hsp] at hfl
      simp only at hfl
      match r with
      | .error e => exact hfl
      | .ok () =>
        have h2 := ih st1 es2
        rcases hl : entryLoop c key mx cs st1 es2 with ⟨st2, ev2, es3, r2⟩
        rw [hl] at h2
        simp only at h2
        simp only [hl, List.all_append]
        rw [hfl, h2]
        rfl
    · exact ih st _

theorem entryCancel_limFree (c : S3Client σ) (key : String) (u : Option String) (st : σ)
    (orig : String) : (entryCancel c key u st orig).2.1.all limFree = true := by
  match u with
  | none => simp [entryCancel]
  | some uid =>
    simp only [entryCancel]
    rcases ha : c.abortMultipart st key uid with ⟨ra, sta⟩
    match ra with
    | .error e => simp [limFree]
    | .ok () => simp [limFree]

theorem entryFinish_limFree (c : S3Client σ) (key : String) (st : σ) (es : EntrySt) :
    (entryFinish c key st es).trace.all limFree = true := by
  rcases hb : es.buffer with _ | ⟨b, bs⟩ <;> rcases hu : es.uploadId with _ | uid
  · simp [entryFinish, hb, hu]
  · simp only [entryFinish, hb, hu]
    rcases hcm : c.completeMultipart st key uid es.completedParts with ⟨rc, st1⟩
    match rc with
    | .error e =>
      have hcl := entryCancel_limFree c key (some uid) st1 e
      rcases hec : entryCancel c key (some uid) st1 e with ⟨st2, ev2, e2⟩
      rw [hec] at hcl
      simp only [hec]
      simp only at hcl
      rw [List.all_cons, hcl]
      simp [limFree]
    | .ok () => simp [limFree]
  · simp only [entryFinish, hb, hu]
    rcases hp : c.putObject st key (b :: bs) with ⟨rp, st1⟩
    match rp with
    | .error e => simp [limFree]
    | .ok () => simp [limFree]
  · simp only [entryFinish, hb, hu]
    have hsl := entrySendPart_limFree c key uid st es
    rcases hsp : entrySendPart c key uid st es with ⟨st1, ev, es1, r⟩
    rw [hsp] at hsl
    simp only at hsl
    match r with
    | .error e =>
      have hcl := entryCancel_limFree c key (some uid) st1 e
      rcases hec : entryCancel c key (some uid) st1 e with ⟨st2, ev2, e2⟩
      rw [hec] at hcl
      simp only [hec]
      simp only at hcl
      rw [List.all_append, hsl, hcl]
      rfl
    | .ok () =>
      simp only []
      rcases hcm : c.completeMultipart st1 key uid es1.completedParts with ⟨rc, st2⟩
      match rc with
      | .error e =>
        simp only []
        have hcl := entryCancel_limFree c key (some uid) st2 e
        rcases hec : entryCancel c key (some uid) st2 e with ⟨st3, ev3, e3⟩
        rw [hec] at hcl
        simp only at hcl
        simp only [List.all_append, List.all_cons]
        rw [hsl, hcl]
        simp [limFree]
      | .ok () =>
        simp only []
        simp only [List.all_append]
        rw [hsl]
        simp [limFree]

theorem entryUpload_limFree (c : S3Client σ) (key : String) (mx : Nat) (cs : List Bytes)
    (st : σ) : (entryUpload c key mx cs st).trace.all limFree = true := by
  simp only [entryUpload]
  have hll := entryLoop_limFree c key mx cs st ⟨0, [], none, [], 1⟩
  rcases hl : entryLoop c key mx cs st ⟨0, [], none, [], 1⟩ with ⟨st1, ev1, es1, r⟩
  rw [hl] at hll
  simp only at hll
  match r with
  | .error e =>
    have hcl := entryCancel_limFree c key es1.uploadId st1 e
    rcases hec : entryCancel c key es1.uploadId st1 e with ⟨st2, ev2, e2⟩
    rw [hec] at hcl
    simp only [hec]
    simp only at hcl
    rw [List.all_append, hll, hcl]
    rfl
  | .ok () =>
    have hfl := entryFinish_limFree c key st1 es1
    simp only [List.all_append]
    rw [hll, hfl]
    rfl

theorem unzipCancel_limFree (c : S3Client σ) (ents : List (String × Option String)) (st : σ) :
    (unzipCancel c ents st).2.all limFree = true := by
  induction ents generalizing st with
  | nil => simp [unzipCancel]
  | cons p rest ih =>
    rcases p with ⟨key, u⟩
    match u with
    | none => simpa [unzipCancel] using ih st
    | some uid =>
      simp only [unzipCancel]
      rcases ha : c.abortMultipart st key uid with ⟨ra, st1⟩
      simp only [ha]
      have hrec := ih st1
      rcases hc : unzipCancel c rest st1 with ⟨st2, tr2⟩
      rw [hc] at hrec
      simp only [hc]
      simp only at hrec
      rw [List.all_cons, hrec]
      simp [limFree]

theorem unzipEntries_limOk (c : S3Client σ) (f : Bytes → List Bytes) (root : String)
    (mx : Nat) (entries : List (String × Bytes)) (st : σ)
    (ents : List (String × Option String)) (keys : List String) (total : Nat) :
    limOk 0 (unzipEntries c f root mx entries st ents keys total).2.1 = true := by
  induction entries generalizing st ents keys total with
  | nil => simp [unzipEntries, limOk]
  | cons e rest ih =>
    rcases e with ⟨p, content⟩
    simp only [unzipEntries]
    have heu := entryUpload_limFree c (root ++ "/" ++ p) mx (f content) st
    rcases he : entryUpload c (root ++ "/" ++ p) mx (f content) st with ⟨st1, tr1, uid1, res1⟩
    rw [he] at heu
    simp only at heu
    simp only [he]
    match res1 with
    | .error e2 =>
      show limOk 0 (S3Event.limitAcquire (root ++ "/" ++ p) :: tr1) = true
      simp only [limOk]
      rw [Bool.and_eq_true]
      exact ⟨by simp, (limFree_limOk _ 1 heu).1⟩
    | .ok bytes =>
      rcases hu : unzipEntries c f root mx rest st1 (ents ++ [(root ++ "/" ++ p, uid1)])
          (keys ++ [root ++ "/" ++ p]) (total + bytes) with ⟨st2, tr2, ents2, r2⟩
      have hrec := ih st1 (ents ++ [(root ++ "/" ++ p, uid1)]) (keys ++ [root ++ "/" ++ p])
        (total + bytes)
      rw [hu] at hrec
      simp only at hrec
      simp only [hu]
      show limOk 0 (S3Event.limitAcquire (root ++ "/" ++ p) ::
        (tr1 ++ (S3Event.limitRelease (root ++ "/" ++ p) :: tr2))) = true
      simp only [limOk]
      rw [Bool.and_eq_true]
      refine ⟨by simp, ?_⟩
      rw [limOk_append]
      have hfree := limFree_limOk tr1 1 heu
      rw [hfree.1, hfree.2]
      simpa [limOk] using hrec

theorem downloadFiles_trace_ok (c : S3Client σ) (ks : List String) (st : σ)
    (hok : ∀ st2 k, k ∈ ks → ∃ b, (c.getObject st2 k).1 = .ok (some b)) :
    (downloadFiles c ks st).trace = (ks.map downloadSeg).flatten := by
  induction ks generalizing st with
  | nil => simp [downloadFiles]
  | cons k ks ih =>
    obtain ⟨b, hb⟩ := hok st k (by simp)
    rcases hg : c.getObject st k with ⟨r, st1⟩
    rw [hg] at hb
    simp only at hb
    subst hb
    simp only [downloadFiles, hg]
    rw [ih st1 (fun st2 k2 hk2 => hok st2 k2 (by simp [hk2]))]
    simp [downloadSeg]

theorem zipRun_limOk (c : S3Client σ) (f : Bytes → List Bytes) (opts : S3ArchiverOptions)
    (st0 : σ) : limOk 0 (zipRun c f opts st0).trace = true := by
  simp only [zipRun]
  split
  · simp [zipCancel, limOk]
  · simp [zipCancel, limOk]
  · next uid st1 heq =>
    rcases hdl : downloadFiles c opts.inputKeys st1 with ⟨dls3, dltr, dlres⟩
    have hb := downloadFiles_balanced c opts.inputKeys st1
    rw [hdl] at hb
    simp only at hb
    match dlres with
    | .error e1 =>
      simp only []
      rcases hc : zipCancel c opts.outputKey (some uid) dls3 e1 with ⟨st2, tr, e2⟩
      have hfr := zipCancel_limFree c opts.outputKey (some uid) dls3 e1
      rw [hc] at hfr
      simp only at hfr
      simp only [limOk]
      rw [limOk_append, hb.1, hb.2]
      simpa using (limFree_limOk tr 0 hfr).1
    | .ok entries =>
      simp only []
      rcases hup2 : uploadParts c opts.outputKey (opts.maxPartSize.getD defaultMaxPartSize)
          (f (encode entries)) [] dls3 ⟨some uid, 1, []⟩ 0 with ⟨upst, uptr, upm, upsz, upres⟩
      have hul := uploadParts_limFree c opts.outputKey (opts.maxPartSize.getD defaultMaxPartSize)
        (f (encode entries)) [] dls3 ⟨some uid, 1, []⟩ 0
      rw [hup2] at hul
      simp only at hul
      match upres with
      | .error e1 =>
        simp only []
        rcases hc : zipCancel c opts.outputKey (some uid) upst e1 with ⟨st2, tr, e2⟩
        have hfr := zipCancel_limFree c opts.outputKey (some uid) upst e1
        rw [hc] at hfr
        simp only at hfr
        simp only [limOk]
        rw [limOk_append, hb.1, hb.2]
        simp only [Bool.true_and]
        rw [limOk_append, (limFree_limOk uptr 0 hul).1, (limFree_limOk uptr 0 hul).2]
        simpa using (limFree_limOk tr 0 hfr).1
      | .ok () =>
        simp only []
        rcases hcm : c.completeMultipart upst opts.outputKey uid upm.completedParts
          with ⟨rc, st2⟩
        match rc with
        | .error e1 =>
          simp only []
          rcases hc : zipCancel c opts.outputKey (some uid) st2 e1 with ⟨st3, tr, e2⟩
          have hfr := zipCancel_limFree c opts.outputKey (some uid) st2 e1
          rw [hc] at hfr
          simp only at hfr
          simp only [limOk]
          rw [limOk_append, hb.1, hb.2]
          simp only [Bool.true_and]
          rw [limOk_append, (limFree_limOk uptr 0 hul).1, (limFree_limOk uptr 0 hul).2]
          simp only [limOk]
          exact (limFree_limOk tr 0 hfr).1
        | .ok () =>
          simp only []
          simp only [limOk]
          rw [limOk_append, hb.1, hb.2]
          simp only [Bool.true_and]
          rw [limOk_append, (limFree_limOk uptr 0 hul).1, (limFree_limOk uptr 0 hul).2]
          simp [limOk]

theorem unzipRun_limOk (c : S3Client σ) (f : Bytes → List Bytes) (opts : S3UnzipOptions)
    (st0 : σ) : limOk 0 (unzipRun c f opts st0).trace = true := by
  simp only [unzipRun]
  split
  · simp [limOk]
  · simp [limOk]
  · next body st1 heq =>
    split
    · simp [limOk]
    · next entries hdec =>
      have hent := unzipEntries_limOk c f (stripLeadingSlash opts.outputRoot)
        (opts.maxPartSize.getD defaultMaxPartSize) entries st1 [] [] 0
      rcases hu : unzipEntries c f (stripLeadingSlash opts.outputRoot)
          (opts.maxPartSize.getD defaultMaxPartSize) entries st1 [] [] 0
        with ⟨st2, tr2, ents, r2⟩
      rw [hu] at hent
      simp only at hent
      match r2 with
      | .error e =>
        simp only []
        have hcl := unzipCancel_limFree c ents st2
        rcases hcc : unzipCancel c ents st2 with ⟨st3, tr3⟩
        rw [hcc] at hcl
        simp only at hcl
        simp only [limOk]
        rw [limOk_append, hent]
        simpa using (limFree_limOk tr3 _ hcl).1
      | .ok res =>
        rcases res with ⟨keys, total⟩
        simp only [limOk]
        exact hent

/-- C6 counterexample: in a concrete successful zip run, the remote read
for `dir/a` is the second event of the whole trace and no limiter slot has
been acquired anywhere before it — the `GetObjectCommand` is sent first and
only afterwards is the `p-limit` slot taken.  This contradicts the claim
that a Concurrency Limiter slot is awaited before each remote read stream
is opened. -/
theorem c6_counterexample :
    zipRunAB.trace.take 3 =
      [S3Event.createMultipart "out/archive.zip", S3Event.getObject "dir/a",
       S3Event.limitAcquire "a"] ∧
    S3Event.limitAcquire "a" ∉ zipRunAB.trace.take 2 ∧
    S3Event.limitAcquire "a" ∈ zipRunAB.trace := by
  refine ⟨by decide, by decide, by decide⟩

/-- C6 amended: on the zip path each remote read is opened **before** its
limiter slot is acquired: when the session is created and every source read
yields a body, the run's trace is the createMultipartUpload call followed
by, for each source key in order, the block
`[getObject k, limitAcquire, entryConsumed, limitRelease]` — the slot is
taken after the stream is open, held until the archiver has consumed the
entry, and released afterwards — followed by limiter-free upload events.
Because every download is awaited to completion before the next begins, at
most one limiter slot is ever held at a time on the zip path, and likewise
on the unzip path (each destination writer runs inside its slot), so the
in-flight count never exceeds any configured maximum ≥ 1;
`limOk 0 tr = true` states that every acquisition happens with zero slots
held. -/
theorem c6_amended (c : S3Client σ) (f : Bytes → List Bytes) (opts : S3ArchiverOptions)
    (st0 : σ) (uid : String)
    (hcr : (c.createMultipart st0 opts.outputKey).1 = .ok (some uid))
    (hok : ∀ st k, k ∈ opts.inputKeys → ∃ b, (c.getObject st k).1 = .ok (some b)) :
    (∃ rest, (zipRun c f opts st0).trace =
        S3Event.createMultipart opts.outputKey ::
          ((opts.inputKeys.map downloadSeg).flatten ++ rest) ∧
        rest.all limFree = true) ∧
    limOk 0 (zipRun c f opts st0).trace = true ∧
    (∀ (σ2 : Type) (c2 : S3Client σ2) (opts2 : S3UnzipOptions) (st2 : σ2),
      limOk 0 (unzipRun c2 f opts2 st2).trace = true) := by
  refine ⟨?_, zipRun_limOk c f opts st0, fun σ2 c2 opts2 st2 => unzipRun_limOk c2 f opts2 st2⟩
  simp only [zipRun]
  rcases hcc : c.createMultipart st0 opts.outputKey with ⟨rc, st1⟩
  rw [hcc] at hcr
  simp only at hcr
  subst hcr
  simp only []
  rcases hdl : downloadFiles c opts.inputKeys st1 with ⟨dls3, dltr, dlres⟩
  have htr := downloadFiles_trace_ok c opts.inputKeys st1 hok
  rw [hdl] at htr
  simp only at htr
  subst htr
  match dlres with
  | .error e1 =>
    simp only []
    rcases hc : zipCancel c opts.outputKey (some uid) dls3 e1 with ⟨st2, tr, e2⟩
    have hfr := zipCancel_limFree c opts.outputKey (some uid) dls3 e1
    rw [hc] at hfr
    simp only at hfr
    exact ⟨tr, rfl, hfr⟩
  | .ok entries =>
    simp only []
    rcases hup2 : uploadParts c opts.outputKey (opts.maxPartSize.getD defaultMaxPartSize)
        (f (encode entries)) [] dls3 ⟨some uid, 1, []⟩ 0 with ⟨upst, uptr, upm, upsz, upres⟩
    have hul := uploadParts_limFree c opts.outputKey (opts.maxPartSize.getD defaultMaxPartSize)
      (f (encode entries)) [] dls3 ⟨some uid, 1, []⟩ 0
    rw [hup2] at hul
    simp only at hul
    match upres with
    | .error e1 =>
      simp only []
      rcases hc : zipCancel c opts.outputKey (some uid) upst e1 with ⟨st2, tr, e2⟩
      have hfr := zipCancel_limFree c opts.outputKey (some uid) upst e1
      rw [hc] at hfr
      simp only at hfr
      refine ⟨uptr ++ tr, rfl, ?_⟩
      rw [List.all_append, hul, hfr]
      rfl
    | .ok () =>
      simp only []
      rcases hcm : c.completeMultipart upst opts.outputKey uid upm.completedParts
        with ⟨rcm, st2⟩
      match rcm with
      | .error e1 =>
        simp only []
        rcases hc : zipCancel c opts.outputKey (some uid) st2 e1 with ⟨st3, tr, e2⟩
        have hfr := zipCancel_limFree c opts.outputKey (some uid) st2 e1
        rw [hc] at hfr
        simp only at hfr
        refine ⟨uptr ++ (S3Event.completeMultipart opts.outputKey uid upm.completedParts :: tr),
          rfl, ?_⟩
        rw [List.all_append, hul, List.all_cons, hfr]
        simp [limFree]
      | .ok () =>
        simp only []
        refine ⟨uptr ++ [S3Event.completeMultipart opts.outputKey uid upm.completedParts],
          rfl, ?_⟩
        rw [List.all_append, hul]
        simp [limFree]

/-- Witness for `c6_amended` at a concrete client and job. -/
theorem c6_amended_witness :
    (∃ rest, (zipRun readOkClient oneChunk zipOptsAB ()).trace =
        S3Event.createMultipart "out/archive.zip" ::
          ((["dir/a", "dir/b"].map downloadSeg).flatten ++ rest) ∧
        rest.all limFree = true) ∧
    limOk 0 (zipRun readOkClient oneChunk zipOptsAB ()).trace = true ∧
    (∀ (σ2 : Type) (c2 : S3Client σ2) (opts2 : S3UnzipOptions) (st2 : σ2),
      limOk 0 (unzipRun c2 oneChunk opts2 st2).trace = true) :=
  c6_amended readOkClient oneChunk zipOptsAB () "u0" rfl
    (fun _ _ _ => ⟨[1, 2], rfl⟩)

/-! ## C5: read failures versus missing bodies on the zip path -/

/-- C5 counterexample: a run in which the read for source key `"ghost"`
succeeds without a body.  The key is silently skipped — the archiver never
consumes an entry for it — yet `zip` succeeds (returning the 1-byte empty
archive), so the key neither contributes an archive entry nor causes `zip`
to reject. -/
theorem c5_counterexample :
    zipGhost.res = .ok ⟨1, "o.zip"⟩ ∧
    S3Event.getObject "ghost" ∈ zipGhost.trace ∧
    S3Event.entryConsumed "ghost" ∉ zipGhost.trace := by
  refine ⟨rfl, by decide, by decide⟩

/-- C5 amended: a rejected `GetObjectCommand` send fails the download phase
with that same error (propagating to the job failure path; no later key is
processed), but a read that succeeds **without a body** is silently
skipped: the phase continues exactly as if the key had not been listed, so
the key contributes no archive entry while the job can still succeed. -/
theorem c5_amended (c : S3Client σ) (k : String) (ks : List String) (st : σ) :
    (∀ e, (c.getObject st k).1 = .error e →
      (downloadFiles c (k :: ks) st).res = .error e ∧
      (downloadFiles c (k :: ks) st).trace = [S3Event.getObject k]) ∧
    ((c.getObject st k).1 = .ok none →
      (downloadFiles c (k :: ks) st).res =
        (downloadFiles c ks (c.getObject st k).2).res ∧
      (downloadFiles c (k :: ks) st).trace =
        S3Event.getObject k :: (downloadFiles c ks (c.getObject st k).2).trace) := by
  rcases hg : c.getObject st k with ⟨r, st1⟩
  constructor
  · intro e he
    simp only at he
    subst he
    simp [downloadFiles, hg]
  · intro hn
    simp only at hn
    subst hn
    simp [downloadFiles, hg]

/-- Witness for `c5_amended`: the silent-skip branch at a concrete client. -/
theorem c5_amended_witness :
    (downloadFiles noBodyClient ["ghost"] ⟨[], [], 0⟩).res =
      (downloadFiles noBodyClient []
        (noBodyClient.getObject ⟨[], [], 0⟩ "ghost").2).res ∧
    (downloadFiles noBodyClient ["ghost"] ⟨[], [], 0⟩).trace =
      S3Event.getObject "ghost" ::
        (downloadFiles noBodyClient []
          (noBodyClient.getObject ⟨[], [], 0⟩ "ghost").2).trace :=
  (c5_amended noBodyClient "ghost" [] ⟨[], [], 0⟩).2 rfl

/-! ## C2: abort coverage and the originating error -/

theorem unzipCancel_covers (c : S3Client σ) (ents : List (String × Option String)) (st : σ) :
    ∀ k u, (k, some u) ∈ ents → S3Event.abortMultipart k u ∈ (unzipCancel c ents st).2 := by
  induction ents generalizing st with
  | nil => intro k u h; simp at h
  | cons p rest ih =>
    intro k u h
    rcases p with ⟨key, uo⟩
    match uo with
    | none =>
      simp only [unzipCancel]
      rcases List.mem_cons.mp h with h1 | h1
      · simp at h1
      · exact ih st k u h1
    | some uid =>
      simp only [unzipCancel]
      rcases ha : c.abortMultipart st key uid with ⟨ra, st1⟩
      simp only [ha]
      rcases hc : unzipCancel c rest st1 with ⟨st2, tr2⟩
      rcases List.mem_cons.mp h with h1 | h1
      · simp only [Prod.mk.injEq, Option.some.injEq] at h1
        obtain ⟨h2, h3⟩ := h1
        subst h2; subst h3
        simp
      · have hrec := ih st1 k u h1
        rw [hc] at hrec
        simp only at hrec
        simp [hrec]

/-- C2 counterexample: a zip run in which the first source read rejects
with `"read boom"` and the abort of the created session itself rejects
with `"abort boom"`.  The abort is invoked, but because `S3Zip.cancel` does
not guard the abort send, `zip` rejects with `"abort boom"`: the caller
does not receive the originating error. -/
theorem c2_counterexample :
    zipReadAbortFail.res = .error "abort boom" ∧
    "abort boom" ≠ "read boom" ∧
    S3Event.abortMultipart "o.zip" "u0" ∈ zipReadAbortFail.trace := by
  refine ⟨rfl, by decide, by decide⟩

/-- C2 amended: every session created during a job is aborted (or
completed) before the job returns, and the job rejects with the originating
error **provided the abort sends themselves succeed** — on the zip path a
failing abort replaces the originating error.  On the unzip path the
job-level cleanup is shielded, so a failing entry phase always rejects with
the entry-phase error, with no assumption on the aborts, and every
session recorded for an entry receives an abort call. -/
theorem c2_amended (c : S3Client σ) (f : Bytes → List Bytes) (opts : S3ArchiverOptions)
    (st0 : σ) (uid : String) (e : String)
    (hcr : (c.createMultipart st0 opts.outputKey).1 = .ok (some uid))
    (hdl : (downloadFiles c opts.inputKeys
      (c.createMultipart st0 opts.outputKey).2).res = .error e)
    (habort : ∀ st, (c.abortMultipart st opts.outputKey uid).1 = .ok ()) :
    ((zipRun c f opts st0).res = .error e ∧
      S3Event.abortMultipart opts.outputKey uid ∈ (zipRun c f opts st0).trace) ∧
    (∀ (σ2 : Type) (c2 : S3Client σ2) (f2 : Bytes → List Bytes) (opts2 : S3UnzipOptions)
        (st2 : σ2) (body : Bytes) (entries : List (String × Bytes)) (e2 : String),
      (c2.getObject st2 opts2.inputKey).1 = .ok (some body) →
      decode body = some entries →
      (unzipEntries c2 f2 (stripLeadingSlash opts2.outputRoot)
          (opts2.maxPartSize.getD defaultMaxPartSize) entries
          (c2.getObject st2 opts2.inputKey).2 [] [] 0).2.2.2 = .error e2 →
      (unzipRun c2 f2 opts2 st2).res = .error e2 ∧
      (∀ k u, (k, some u) ∈ (unzipEntries c2 f2 (stripLeadingSlash opts2.outputRoot)
          (opts2.maxPartSize.getD defaultMaxPartSize) entries
          (c2.getObject st2 opts2.inputKey).2 [] [] 0).2.2.1 →
        S3Event.abortMultipart k u ∈ (unzipRun c2 f2 opts2 st2).trace)) := by
  constructor
  · simp only [zipRun]
    rcases hcc : c.createMultipart st0 opts.outputKey with ⟨rc, st1⟩
    rw [hcc] at hcr hdl
    simp only at hcr hdl
    subst hcr
    simp only []
    rcases hdl2 : downloadFiles c opts.inputKeys st1 with ⟨dls3, dltr, dlres⟩
    rw [hdl2] at hdl
    simp only at hdl
    subst hdl
    simp only []
    have hab := habort dls3
    rcases hab2 : c.abortMultipart dls3 opts.outputKey uid with ⟨ra, sta⟩
    rw [hab2] at hab
    simp only at hab
    subst hab
    simp only [zipCancel, hab2]
    constructor <;> simp
  · intro σ2 c2 f2 opts2 st2 body entries e2 hget hdec hent
    simp only [unzipRun]
    rcases hg : c2.getObject st2 opts2.inputKey with ⟨rg, stg⟩
    rw [hg] at hget hent
    simp only at hget hent
    subst hget
    simp only [hdec]
    rcases hu : unzipEntries c2 f2 (stripLeadingSlash opts2.outputRoot)
        (opts2.maxPartSize.getD defaultMaxPartSize) entries stg [] [] 0
      with ⟨stu, tru, entsu, ru⟩
    rw [hu] at hent
    simp only at hent
    subst hent
    simp only []
    rcases hcc : unzipCancel c2 entsu stu with ⟨stc, trc⟩
    refine ⟨by simp, ?_⟩
    intro k u hku
    have hcov := unzipCancel_covers c2 entsu stu k u hku
    rw [hcc] at hcov
    simp only at hcov
    simp [hcov]

/-- Witness for `c2_amended` at concrete clients on both paths. -/
theorem c2_amended_witness :
    (zipReadFail.res = .error "read boom" ∧
      S3Event.abortMultipart "o.zip" "u0" ∈ zipReadFail.trace) ∧
    (unzipPartFail.res = .error "part boom" ∧
      S3Event.abortMultipart "ex/f" "u0" ∈ unzipPartFail.trace) := by
  have h := c2_amended readFailClient oneChunk
    { inputKeys := ["k"], outputKey := "o.zip" } () "u0" "read boom" rfl rfl (fun _ => rfl)
  refine ⟨h.1, ?_⟩
  have h2 := h.2 Unit partFailClient oneChunk
    { inputKey := "in.zip", outputRoot := "ex", maxPartSize := some 2 } ()
    (encode [("f", [1, 2, 3])]) [("f", [1, 2, 3])] "part boom" rfl (by rfl) rfl
  exact ⟨h2.1, h2.2 "ex/f" "u0" (by decide)⟩

/-! ## C4: abort failures are shielded only at the unzip job level -/

/-- C4 counterexample: an unzip run in which an entry's part upload rejects
with `"part boom"` and aborts reject with `"abort boom"`.  The entry's own
cleanup (`S3UnzipEntry.upload`'s catch) does not guard its abort call, so
the abort failure replaces the original error and `unzip` rejects with
`"abort boom"` — the abort failure was re-raised and masked the original
fatal error, contradicting the claim that abort failures are only ever
logged. -/
theorem c4_counterexample :
    unzipPartAbortFail.res = .error "abort boom" ∧
    "abort boom" ≠ "part boom" ∧
    S3Event.uploadPart "ex/f" "u0" 1 [1, 2, 3] ∈ unzipPartAbortFail.trace := by
  refine ⟨rfl, by decide, by decide⟩

/-- C4 amended: only the **job-level** unzip cleanup (`S3Unzip.cancel`)
shields abort failures — a failing entry phase makes `unzip` reject with
the entry-phase error no matter how the job-level aborts behave.  On the
zip path (`S3Zip.cancel`) and in an unzip entry's own cleanup
(`S3UnzipEntry.upload`'s catch), a rejected abort propagates and replaces
the original error. -/
theorem c4_amended :
    (∀ (σ : Type) (c : S3Client σ) (f : Bytes → List Bytes) (opts : S3UnzipOptions)
        (st0 : σ) (body : Bytes) (entries : List (String × Bytes)) (e : String),
      (c.getObject st0 opts.inputKey).1 = .ok (some body) →
      decode body = some entries →
      (unzipEntries c f (stripLeadingSlash opts.outputRoot)
          (opts.maxPartSize.getD defaultMaxPartSize) entries
          (c.getObject st0 opts.inputKey).2 [] [] 0).2.2.2 = .error e →
      (unzipRun c f opts st0).res = .error e) ∧
    (∀ (σ : Type) (c : S3Client σ) (key uid : String) (st : σ) (orig e2 : String),
      (c.abortMultipart st key uid).1 = .error e2 →
      (zipCancel c key (some uid) st orig).2.2 = e2) ∧
    (∀ (σ : Type) (c : S3Client σ) (key uid : String) (st : σ) (orig e2 : String),
      (c.abortMultipart st key uid).1 = .error e2 →
      (entryCancel c key (some uid) st orig).2.2 = e2) := by
  refine ⟨?_, ?_, ?_⟩
  · intro σ c f opts st0 body entries e hget hdec hent
    simp only [unzipRun]
    rcases hg : c.getObject st0 opts.inputKey with ⟨rg, stg⟩
    rw [hg] at hget hent
    simp only at hget hent
    subst hget
    simp only [hdec]
    rcases hu : unzipEntries c f (stripLeadingSlash opts.outputRoot)
        (opts.maxPartSize.getD defaultMaxPartSize) entries stg [] [] 0
      with ⟨stu, tru, entsu, ru⟩
    rw [hu] at hent
    simp only at hent
    subst hent
    simp only []
  · intro σ c key uid st orig e2 hab
    simp only [zipCancel]
    rcases ha : c.abortMultipart st key uid with ⟨ra, st1⟩
    rw [ha] at hab
    simp only at hab
    subst hab
    simp
  · intro σ c key uid st orig e2 hab
    simp only [entryCancel]
    rcases ha : c.abortMultipart st key uid with ⟨ra, st1⟩
    rw [ha] at hab
    simp only at hab
    subst hab
    simp

/-- Witness for `c4_amended` at concrete clients. -/
theorem c4_amended_witness :
    unzipPartAbortFail.res = .error "abort boom" ∧
    (zipCancel readAbortFailClient "o.zip" (some "u0") () "read boom").2.2 = "abort boom" ∧
    (entryCancel partAbortFailClient "ex/f" (some "u0") () "part boom").2.2 = "abort boom" := by
  have h := c4_amended
  exact ⟨h.1 Unit partAbortFailClient oneChunk
      { inputKey := "in.zip", outputRoot := "ex", maxPartSize := some 2 } ()
      (encode [("f", [1, 2, 3])]) [("f", [1, 2, 3])] "abort boom" rfl (by rfl) rfl,
    h.2.1 Unit readAbortFailClient "o.zip" "u0" () "read boom" "abort boom" rfl,
    h.2.2 Unit partAbortFailClient "ex/f" "u0" () "part boom" "abort boom" rfl⟩

/-! ## Multipart invariants on the zip path (C1, C9, C10) -/

theorem zipSendPart_spec (c : S3Client σ) (key : String) (st : σ) (m : Mpu) (body : Bytes)
    (uid : String) (hm : m.uploadId = some uid) :
    (zipSendPart c key st m body).2.1 = [S3Event.uploadPart key uid m.partNumber body] ∧
    (zipSendPart c key st m body).2.2.1.uploadId = some uid ∧
    (zipSendPart c key st m body).2.2.1.partNumber = m.partNumber + 1 ∧
    ((zipSendPart c key st m body).2.2.2 = .ok () →
      ∃ etag, (zipSendPart c key st m body).2.2.1.completedParts =
        m.completedParts ++ [⟨m.partNumber, etag⟩]) := by
  simp only [zipSendPart, hm]
  rcases hup : c.uploadPart st key uid m.partNumber body with ⟨r, st1⟩
  match r with
  | .error e => simp [hm]
  | .ok none => simp [hm]
  | .ok (some etag) => exact ⟨rfl, rfl, rfl, fun _ => ⟨etag, rfl⟩⟩

theorem partNumsFor_cons_upload (uid key : String) (pn : Nat) (b : Bytes)
    (tr : List S3Event) :
    partNumsFor uid (S3Event.uploadPart key uid pn b :: tr) = pn :: partNumsFor uid tr := by
  simp [partNumsFor]

theorem partBodiesFor_cons_upload (uid key : String) (pn : Nat) (b : Bytes)
    (tr : List S3Event) :
    partBodiesFor uid (S3Event.uploadPart key uid pn b :: tr) = b :: partBodiesFor uid tr := by
  simp [partBodiesFor]

theorem uploadParts_spec (c : S3Client σ) (key : String) (mx : Nat) (uid : String) :
    ∀ (cs : List Bytes) (buf : Bytes) (st : σ) (m : Mpu) (sz : Nat), mpuInv uid m →
    (((uploadParts c key mx cs buf st m sz).res = .ok () →
        mpuInv uid (uploadParts c key mx cs buf st m sz).mpu) ∧
      (∀ e ∈ (uploadParts c key mx cs buf st m sz).trace,
        ∃ pn b, e = S3Event.uploadPart key uid pn b) ∧
      partNumsFor uid (uploadParts c key mx cs buf st m sz).trace =
        List.range' m.partNumber
          (partNumsFor uid (uploadParts c key mx cs buf st m sz).trace).length ∧
      (∀ b ∈ (partBodiesFor uid (uploadParts c key mx cs buf st m sz).trace).dropLast,
        mx ≤ b.length) ∧
      ((uploadParts c key mx cs buf st m sz).res = .ok () →
        (uploadParts c key mx cs buf st m sz).size = sz + (cs.map List.length).sum ∧
        ((partBodiesFor uid (uploadParts c key mx cs buf st m sz).trace).map
          List.length).sum = buf.length + (cs.map List.length).sum)) := by
  intro cs
  induction cs with
  | nil =>
    intro buf st m sz hm
    simp only [uploadParts]
    split
    · next hlen =>
      have hsp := zipSendPart_spec c key st m buf uid hm.1
      rcases hz : zipSendPart c key st m buf with ⟨st1, ev, m1, r⟩
      rw [hz] at hsp
      simp only at hsp
      obtain ⟨hev, hmid, hpn, hok⟩ := hsp
      subst hev
      refine ⟨?_, ?_, ?_, ?_, ?_⟩
      · intro hr
        simp only at hr
        subst hr
        obtain ⟨etag, hcp⟩ := hok rfl
        refine ⟨hmid, ?_, ?_⟩
        · rw [hpn, hcp]
          simp [hm.2.1]
        · rw [hcp]
          simp only [List.map_append, List.length_append]
          rw [hm.2.2]
          simp [List.range'_1_concat, hm.2.1, Nat.add_comm]
      · intro e he
        simp at he
        subst he
        exact ⟨m.partNumber, buf, rfl⟩
      · rw [partNumsFor_cons_upload]
        simp [partNumsFor, List.range'_succ]
      · rw [partBodiesFor_cons_upload]
        intro b hb
        simp [partBodiesFor, List.dropLast] at hb
      · intro hr
        rw [partBodiesFor_cons_upload]
        simp [partBodiesFor]
    · next hlen =>
      refine ⟨fun _ => hm, by simp, by simp [partNumsFor], by simp [partBodiesFor], ?_⟩
      intro _
      have : buf.length = 0 := by omega
      simp [partNumsFor, partBodiesFor, this]
  | cons chunk cs ih =>
    intro buf st m sz hm
    simp only [uploadParts]
    split
    · next hlen =>
      have hsp := zipSendPart_spec c key st m (buf ++ chunk) uid hm.1
      rcases hz : zipSendPart c key st m (buf ++ chunk) with ⟨st1, ev, m1, r⟩
      rw [hz] at hsp
      simp only at hsp
      obtain ⟨hev, hmid, hpn, hok⟩ := hsp
      subst hev
      match r with
      | .error e =>
        simp only []
        refine ⟨by intro h; simp at h, ?_, ?_, ?_, by intro h; simp at h⟩
        · intro e2 he
          simp at he
          subst he
          exact ⟨m.partNumber, buf ++ chunk, rfl⟩
        · rw [partNumsFor_cons_upload]
          simp [partNumsFor, List.range'_succ]
        · rw [partBodiesFor_cons_upload]
          intro b hb
          simp [partBodiesFor, List.dropLast] at hb
      | .ok () =>
        simp only []
        obtain ⟨etag, hcp⟩ := hok rfl
        have hm1 : mpuInv uid m1 := by
          refine ⟨hmid, ?_, ?_⟩
          · rw [hpn, hcp]
            simp [hm.2.1]
          · rw [hcp]
            simp only [List.map_append, List.length_append]
            rw [hm.2.2]
            simp [List.range'_1_concat, hm.2.1, Nat.add_comm]
        have hrec := ih [] st1 m1 (sz + chunk.length) hm1
        obtain ⟨rinv, rev, rnums, rbodies, rsize⟩ := hrec
        refine ⟨?_, ?_, ?_, ?_, ?_⟩
        · intro hr
          try simp only at hr
          exact rinv hr
        · intro e he
          simp only [List.cons_append, List.nil_append, List.mem_cons] at he
          rcases he with he | he
          · subst he; exact ⟨m.partNumber, buf ++ chunk, rfl⟩
          · exact rev e he
        · simp only [List.cons_append, List.nil_append]
          rw [partNumsFor_cons_upload, rnums]
          rw [hpn] at rnums ⊢
          simp [List.range'_succ]
        · simp only [List.cons_append, List.nil_append]
          rw [partBodiesFor_cons_upload]
          rcases hpb : partBodiesFor uid (uploadParts c key mx cs [] st1 m1
              (sz + chunk.length)).trace with _ | ⟨b0, bs⟩
          · intro b hb
            simp [List.dropLast] at hb
          · rw [hpb] at rbodies
            intro b hb
            rw [List.dropLast_cons_of_ne_nil (by simp)] at hb
            rcases List.mem_cons.mp hb with h1 | h1
            · subst h1; omega
            · exact rbodies b h1
        · intro hr
          try simp only at hr
          obtain ⟨hsz, hbod⟩ := rsize hr
          constructor
          · rw [hsz]
            simp [Nat.add_assoc]
          · simp only [List.cons_append, List.nil_append]
            rw [partBodiesFor_cons_upload]
            simp only [List.map_cons, List.sum_cons]
            rw [hbod]
            simp [List.length_append]
            omega
    · next hlen =>
      have hrec := ih (buf ++ chunk) st m (sz + chunk.length) hm
      obtain ⟨rinv, rev, rnums, rbodies, rsize⟩ := hrec
      refine ⟨rinv, rev, rnums, rbodies, ?_⟩
      intro hr
      obtain ⟨hsz, hbod⟩ := rsize hr
      constructor
      · rw [hsz]; simp [Nat.add_assoc]
      · rw [hbod]
        simp [List.length_append]
        omega

theorem partNumsFor_append (uid : String) (a b : List S3Event) :
    partNumsFor uid (a ++ b) = partNumsFor uid a ++ partNumsFor uid b := by
  induction a with
  | nil => simp [partNumsFor]
  | cons e a ih =>
    cases e
    case uploadPart k u pn bb =>
      simp only [List.cons_append, partNumsFor]
      split <;> simp [ih]
    all_goals simp [List.cons_append, partNumsFor, ih]

theorem partBodiesFor_append (uid : String) (a b : List S3Event) :
    partBodiesFor uid (a ++ b) = partBodiesFor uid a ++ partBodiesFor uid b := by
  induction a with
  | nil => simp [partBodiesFor]
  | cons e a ih =>
    cases e
    case uploadPart k u pn bb =>
      simp only [List.cons_append, partBodiesFor]
      split <;> simp [ih]
    all_goals simp [List.cons_append, partBodiesFor, ih]

theorem writtenBytes_append (a b : List S3Event) :
    writtenBytes (a ++ b) = writtenBytes a + writtenBytes b := by
  induction a with
  | nil => simp [writtenBytes]
  | cons e a ih =>
    cases e <;> simp [List.cons_append, writtenBytes, ih] <;> omega

theorem writtenBytes_of_uploads (key uid : String) (tr : List S3Event)
    (h : ∀ e ∈ tr, ∃ pn b, e = S3Event.uploadPart key uid pn b) :
    writtenBytes tr = ((partBodiesFor uid tr).map List.length).sum := by
  induction tr with
  | nil => simp [writtenBytes, partBodiesFor]
  | cons e tr ih =>
    obtain ⟨pn, b, he⟩ := h e (by simp)
    subst he
    rw [partBodiesFor_cons_upload]
    simp only [writtenBytes, List.map_cons, List.sum_cons] at *
    rw [ih (fun e2 he2 => h e2 (by simp [he2]))]

theorem downloadFiles_aux (c : S3Client σ) (ks : List String) (st : σ) :
    (∀ uid, partNumsFor uid (downloadFiles c ks st).trace = []) ∧
    (∀ uid, partBodiesFor uid (downloadFiles c ks st).trace = []) ∧
    writtenBytes (downloadFiles c ks st).trace = 0 ∧
    (∀ k uid ps, S3Event.completeMultipart k uid ps ∉ (downloadFiles c ks st).trace) := by
  induction ks generalizing st with
  | nil => simp [downloadFiles, partNumsFor, partBodiesFor, writtenBytes]
  | cons k ks ih =>
    simp only [downloadFiles]
    rcases hg : c.getObject st k with ⟨r, st1⟩
    match r with
    | .error e => simp [partNumsFor, partBodiesFor, writtenBytes]
    | .ok none =>
      obtain ⟨h1, h2, h3, h4⟩ := ih st1
      refine ⟨?_, ?_, ?_, ?_⟩
      · intro uid; simp [partNumsFor] at h1 ⊢; exact h1 uid
      · intro uid; simp [partBodiesFor] at h2 ⊢; exact h2 uid
      · simp [writtenBytes] at h3 ⊢; exact h3
      · intro k2 uid ps; simp at h4 ⊢; exact h4 k2 uid ps
    | .ok (some body) =>
      obtain ⟨h1, h2, h3, h4⟩ := ih st1
      refine ⟨?_, ?_, ?_, ?_⟩
      · intro uid; simp [partNumsFor] at h1 ⊢; exact h1 uid
      · intro uid; simp [partBodiesFor] at h2 ⊢; exact h2 uid
      · simp [writtenBytes] at h3 ⊢; exact h3
      · intro k2 uid ps; simp at h4 ⊢; exact h4 k2 uid ps

theorem zipCancel_aux (c : S3Client σ) (key : String) (u : Option String) (st : σ)
    (orig : String) :
    (∀ uid, partNumsFor uid (zipCancel c key u st orig).2.1 = []) ∧
    (∀ uid, partBodiesFor uid (zipCancel c key u st orig).2.1 = []) ∧
    writtenBytes (zipCancel c key u st orig).2.1 = 0 ∧
    (∀ k uid ps, S3Event.completeMultipart k uid ps ∉ (zipCancel c key u st orig).2.1) := by
  match u with
  | none => simp [zipCancel, partNumsFor, partBodiesFor, writtenBytes]
  | some uid =>
    simp only [zipCancel]
    rcases ha : c.abortMultipart st key uid with ⟨ra, sta⟩
    match ra with
    | .error e => simp [partNumsFor, partBodiesFor, writtenBytes]
    | .ok () => simp [partNumsFor, partBodiesFor, writtenBytes]

theorem partNumsFor_cons_other (uid : String) (e : S3Event) (tr : List S3Event)
    (h : isUpload e = false) :
    partNumsFor uid (e :: tr) = partNumsFor uid tr := by
  cases e <;> simp [partNumsFor, isUpload] at h ⊢

theorem partBodiesFor_cons_other (uid : String) (e : S3Event) (tr : List S3Event)
    (h : isUpload e = false) :
    partBodiesFor uid (e :: tr) = partBodiesFor uid tr := by
  cases e <;> simp [partBodiesFor, isUpload] at h ⊢

theorem writtenBytes_cons_other (e : S3Event) (tr : List S3Event)
    (h1 : isUpload e = false) (h2 : isPut e = false) :
    writtenBytes (e :: tr) = writtenBytes tr := by
  cases e <;> simp [writtenBytes, isUpload, isPut] at h1 h2 ⊢

theorem partNumsFor_nil_of_other_uid (uid2 key uid : String) (tr : List S3Event)
    (hne : uid ≠ uid2)
    (h : ∀ e ∈ tr, ∃ pn b, e = S3Event.uploadPart key uid pn b) :
    partNumsFor uid2 tr = [] := by
  induction tr with
  | nil => simp [partNumsFor]
  | cons e tr ih =>
    obtain ⟨pn, b, he⟩ := h e (by simp)
    subst he
    simp [partNumsFor, hne]
    have := ih (fun e2 he2 => h e2 (by simp [he2]))
    simpa [partNumsFor] using this

theorem partBodiesFor_nil_of_other_uid (uid2 key uid : String) (tr : List S3Event)
    (hne : uid ≠ uid2)
    (h : ∀ e ∈ tr, ∃ pn b, e = S3Event.uploadPart key uid pn b) :
    partBodiesFor uid2 tr = [] := by
  induction tr with
  | nil => simp [partBodiesFor]
  | cons e tr ih =>
    obtain ⟨pn, b, he⟩ := h e (by simp)
    subst he
    simp [partBodiesFor, hne]
    have := ih (fun e2 he2 => h e2 (by simp [he2]))
    simpa [partBodiesFor] using this

theorem no_complete_of_uploads (key uid : String) (tr : List S3Event)
    (h : ∀ e ∈ tr, ∃ pn b, e = S3Event.uploadPart key uid pn b) :
    ∀ k uid2 ps, S3Event.completeMultipart k uid2 ps ∉ tr := by
  intro k uid2 ps hmem
  obtain ⟨pn, b, he⟩ := h _ hmem
  simp at he

theorem zipRun_aux (c : S3Client σ) (f : Bytes → List Bytes) (opts : S3ArchiverOptions)
    (st0 : σ) :
    partsContig (zipRun c f opts st0).trace ∧
    (∀ uid, partNumsFor uid (zipRun c f opts st0).trace =
      List.range' 1 (partNumsFor uid (zipRun c f opts st0).trace).length) ∧
    (∀ uid b, b ∈ (partBodiesFor uid (zipRun c f opts st0).trace).dropLast →
      opts.maxPartSize.getD defaultMaxPartSize ≤ b.length) ∧
    (∀ r, (zipRun c f opts st0).res = .ok r →
      r.zipFileSize = writtenBytes (zipRun c f opts st0).trace) := by
  simp only [zipRun]
  split
  · next e1 st1 heq =>
    rcases hc : zipCancel c opts.outputKey none st1 e1 with ⟨st2, tr, e2⟩
    have haux := zipCancel_aux c opts.outputKey none st1 e1
    rw [hc] at haux
    simp only at haux
    obtain ⟨a1, a2, a3, a4⟩ := haux
    refine ⟨?_, ?_, ?_, ?_⟩
    · intro k uid ps hmem
      simp at hmem
      exact absurd hmem (a4 k uid ps)
    · intro uid
      simp only [partNumsFor]
      rw [a1 uid]
      rfl
    · intro uid b hb
      simp only [partBodiesFor] at hb
      rw [a2 uid] at hb
      simp at hb
    · intro r hr; simp at hr
  · next st1 heq =>
    rcases hc : zipCancel c opts.outputKey none st1 "Failed to create multipart upload"
      with ⟨st2, tr, e2⟩
    have haux := zipCancel_aux c opts.outputKey none st1 "Failed to create multipart upload"
    rw [hc] at haux
    simp only at haux
    obtain ⟨a1, a2, a3, a4⟩ := haux
    refine ⟨?_, ?_, ?_, ?_⟩
    · intro k uid ps hmem
      simp at hmem
      exact absurd hmem (a4 k uid ps)
    · intro uid
      simp only [partNumsFor]
      rw [a1 uid]
      rfl
    · intro uid b hb
      simp only [partBodiesFor] at hb
      rw [a2 uid] at hb
      simp at hb
    · intro r hr; simp at hr
  · next uid st1 heq =>
    rcases hdl : downloadFiles c opts.inputKeys st1 with ⟨dls3, dltr, dlres⟩
    have hdla := downloadFiles_aux c opts.inputKeys st1
    rw [hdl] at hdla
    simp only at hdla
    obtain ⟨d1, d2, d3, d4⟩ := hdla
    match dlres with
    | .error e1 =>
      simp only []
      rcases hc : zipCancel c opts.outputKey (some uid) dls3 e1 with ⟨st2, tr, e2⟩
      have haux := zipCancel_aux c opts.outputKey (some uid) dls3 e1
      rw [hc] at haux
      simp only at haux
      obtain ⟨a1, a2, a3, a4⟩ := haux
      refine ⟨?_, ?_, ?_, ?_⟩
      · intro k uid2 ps hmem
        simp at hmem
        rcases hmem with h | h
        · exact absurd h (d4 k uid2 ps)
        · exact absurd h (a4 k uid2 ps)
      · intro uid2
        simp only [partNumsFor]
        rw [partNumsFor_append, d1 uid2, a1 uid2]
        rfl
      · intro uid2 b hb
        simp only [partBodiesFor] at hb
        rw [partBodiesFor_append, d2 uid2, a2 uid2] at hb
        simp at hb
      · intro r hr; simp at hr
    | .ok entries =>
      simp only []
      rcases hup2 : uploadParts c opts.outputKey (opts.maxPartSize.getD defaultMaxPartSize)
          (f (encode entries)) [] dls3 ⟨some uid, 1, []⟩ 0 with ⟨upst, uptr, upm, upsz, upres⟩
      have hupa := uploadParts_spec c opts.outputKey
        (opts.maxPartSize.getD defaultMaxPartSize) uid (f (encode entries)) [] dls3
        ⟨some uid, 1, []⟩ 0 ⟨rfl, rfl, rfl⟩
      rw [hup2] at hupa
      simp only at hupa
      obtain ⟨uinv, uev, unums, ubodies, usize⟩ := hupa
      have hnums : ∀ uid2, partNumsFor uid2 uptr =
          List.range' 1 (partNumsFor uid2 uptr).length := by
        intro uid2
        by_cases huid : uid = uid2
        · subst huid; exact unums
        · rw [partNumsFor_nil_of_other_uid uid2 opts.outputKey uid uptr huid uev]
          rfl
      have hbodies : ∀ uid2 b, b ∈ (partBodiesFor uid2 uptr).dropLast →
          opts.maxPartSize.getD defaultMaxPartSize ≤ b.length := by
        intro uid2 b hb
        by_cases huid : uid = uid2
        · subst huid; exact ubodies b hb
        · rw [partBodiesFor_nil_of_other_uid uid2 opts.outputKey uid uptr huid uev] at hb
          simp at hb
      match upres with
      | .error e1 =>
        simp only []
        rcases hc : zipCancel c opts.outputKey (some uid) upst e1 with ⟨st2, tr, e2⟩
        have haux := zipCancel_aux c opts.outputKey (some uid) upst e1
        rw [hc] at haux
        simp only at haux
        obtain ⟨a1, a2, a3, a4⟩ := haux
        refine ⟨?_, ?_, ?_, ?_⟩
        · intro k uid2 ps hmem
          simp at hmem
          rcases hmem with h | h | h
          · exact absurd h (d4 k uid2 ps)
          · exact absurd h (no_complete_of_uploads opts.outputKey uid uptr uev k uid2 ps)
          · exact absurd h (a4 k uid2 ps)
        · intro uid2
          simp only [partNumsFor]
          rw [partNumsFor_append, d1 uid2, partNumsFor_append, a1 uid2]
          simpa using hnums uid2
        · intro uid2 b hb
          simp only [partBodiesFor] at hb
          rw [partBodiesFor_append, d2 uid2, partBodiesFor_append, a2 uid2] at hb
          simp only [List.nil_append, List.append_nil] at hb
          exact hbodies uid2 b hb
        · intro r hr; simp at hr
      | .ok () =>
        simp only []
        have hinv := uinv rfl
        rcases hcm : c.completeMultipart upst opts.outputKey uid upm.completedParts
          with ⟨rcm, st2⟩
        match rcm with
        | .error e1 =>
          simp only []
          rcases hc : zipCancel c opts.outputKey (some uid) st2 e1 with ⟨st3, tr, e2⟩
          have haux := zipCancel_aux c opts.outputKey (some uid) st2 e1
          rw [hc] at haux
          simp only at haux
          obtain ⟨a1, a2, a3, a4⟩ := haux
          refine ⟨?_, ?_, ?_, ?_⟩
          · intro k uid2 ps hmem
            simp at hmem
            rcases hmem with h | h | h | h
            · exact absurd h (d4 k uid2 ps)
            · exact absurd h (no_complete_of_uploads opts.outputKey uid uptr uev k uid2 ps)
            · obtain ⟨h1, h2, h3⟩ := h
              subst h3
              exact hinv.2.2
            · exact absurd h (a4 k uid2 ps)
          · intro uid2
            simp only [partNumsFor]
            rw [partNumsFor_append, d1 uid2, partNumsFor_append]
            simp only [partNumsFor]
            rw [a1 uid2]
            simpa using hnums uid2
          · intro uid2 b hb
            simp only [partBodiesFor] at hb
            rw [partBodiesFor_append, d2 uid2, partBodiesFor_append] at hb
            simp only [partBodiesFor] at hb
            rw [a2 uid2] at hb
            simp only [List.nil_append, List.append_nil] at hb
            exact hbodies uid2 b hb
          · intro r hr; simp at hr
        | .ok () =>
          simp only []
          refine ⟨?_, ?_, ?_, ?_⟩
          · intro k uid2 ps hmem
            simp at hmem
            rcases hmem with h | h | h
            · exact absurd h (d4 k uid2 ps)
            · exact absurd h (no_complete_of_uploads opts.outputKey uid uptr uev k uid2 ps)
            · obtain ⟨h1, h2, h3⟩ := h
              subst h3
              exact hinv.2.2
          · intro uid2
            simp only [partNumsFor]
            rw [partNumsFor_append, d1 uid2, partNumsFor_append]
            simp only [partNumsFor, List.append_nil, List.nil_append]
            simpa using hnums uid2
          · intro uid2 b hb
            simp only [partBodiesFor] at hb
            rw [partBodiesFor_append, d2 uid2, partBodiesFor_append] at hb
            simp only [partBodiesFor, List.append_nil, List.nil_append] at hb
            exact hbodies uid2 b hb
          · intro r hr
            try simp only at hr
            have hr2 : r = ⟨upsz, basename opts.outputKey⟩ := by
              cases hr; rfl
            subst hr2
            simp only [writtenBytes]
            rw [writtenBytes_append, d3, writtenBytes_append]
            have hw := writtenBytes_of_uploads opts.outputKey uid uptr uev
            obtain ⟨hsz, hbod⟩ := usize rfl
            simp only [writtenBytes]
            rw [hw, hbod, hsz]
            simp

/-! ## Entry-writer invariants on the unzip path -/

theorem entrySendPart_spec2 (c : S3Client σ) (key uid : String) (st : σ) (es : EntrySt) :
    (entrySendPart c key uid st es).2.1 =
      [S3Event.uploadPart key uid es.partNumber es.buffer] ∧
    (entrySendPart c key uid st es).2.2.1.uploadId = es.uploadId ∧
    (entrySendPart c key uid st es).2.2.1.totalBytes = es.totalBytes ∧
    (entrySendPart c key uid st es).2.2.1.buffer = [] ∧
    ((entrySendPart c key uid st es).2.2.2 = .ok () →
      ∃ etag, (entrySendPart c key uid st es).2.2.1.completedParts =
          es.completedParts ++ [⟨es.partNumber, etag⟩] ∧
        (entrySendPart c key uid st es).2.2.1.partNumber = es.partNumber + 1) ∧
    (∀ e2, (entrySendPart c key uid st es).2.2.2 = .error e2 →
      (entrySendPart c key uid st es).2.2.1.completedParts = es.completedParts ∧
      (entrySendPart c key uid st es).2.2.1.partNumber = es.partNumber) := by
  simp only [entrySendPart]
  rcases hup : c.uploadPart st key uid es.partNumber es.buffer with ⟨r, st1⟩
  match r with
  | .error e => simp
  | .ok none => simp
  | .ok (some etag) =>
    refine ⟨rfl, rfl, rfl, rfl, fun _ => ⟨etag, rfl, rfl⟩, ?_⟩
    intro e2 he
    simp at he

theorem entryInv_after_send (es es1 : EntrySt) (etag : String) (hinv : entryInv es)
    (hcp : es1.completedParts = es.completedParts ++ [⟨es.partNumber, etag⟩])
    (hpn : es1.partNumber = es.partNumber + 1) : entryInv es1 := by
  constructor
  · rw [hpn, hcp]
    simp [hinv.1]
  · rw [hcp]
    simp only [List.map_append, List.length_append]
    rw [hinv.2]
    simp [List.range'_1_concat, hinv.1, Nat.add_comm]

theorem entryFlush_spec (c : S3Client σ) (key : String) (st : σ) (es : EntrySt)
    (hinv : entryInv es) (hfresh : entryFresh es) :
    entryInv (entryFlush c key st es).2.2.1 ∧
    entryFresh (entryFlush c key st es).2.2.1 ∧
    (entryFlush c key st es).2.2.1.totalBytes = es.totalBytes ∧
    ((entryFlush c key st es).2.2.2 = .ok () →
      (entryFlush c key st es).2.2.1.buffer = [] ∧
      (entryFlush c key st es).2.2.1.uploadId ≠ none) ∧
    (∀ uid2, partNumsFor uid2 (entryFlush c key st es).2.1 =
        List.range' (entryStart es uid2)
          (partNumsFor uid2 (entryFlush c key st es).2.1).length ∧
      ((entryFlush c key st es).2.2.2 = .ok () →
        entryStart (entryFlush c key st es).2.2.1 uid2 =
          entryStart es uid2 + (partNumsFor uid2 (entryFlush c key st es).2.1).length)) ∧
    (∀ uid2 b, b ∈ partBodiesFor uid2 (entryFlush c key st es).2.1 → b = es.buffer) ∧
    (∀ k2 uid2 ps, S3Event.completeMultipart k2 uid2 ps ∉ (entryFlush c key st es).2.1) ∧
    (∀ k2 b, S3Event.putObject k2 b ∉ (entryFlush c key st es).2.1) ∧
    ((entryFlush c key st es).2.2.2 = .ok () →
      writtenBytes (entryFlush c key st es).2.1 = es.buffer.length) := by
  rcases hu : es.uploadId with _ | uid
  · simp only [entryFlush, hu]
    rcases hcr : c.createMultipart st key with ⟨r, st1⟩
    match r with
    | .error e =>
      refine ⟨hinv, hfresh, rfl, by intro h; simp at h, ?_, ?_, ?_, ?_,
        by intro h; simp at h⟩
      · intro uid2
        refine ⟨by simp [partNumsFor], by intro h; simp at h⟩
      · intro uid2 b hb
        simp [partBodiesFor] at hb
      · intro k2 uid2 ps
        simp
      · intro k2 b
        simp
    | .ok none =>
      refine ⟨hinv, hfresh, rfl, by intro h; simp at h, ?_, ?_, ?_, ?_,
        by intro h; simp at h⟩
      · intro uid2
        refine ⟨by simp [partNumsFor], by intro h; simp at h⟩
      · intro uid2 b hb
        simp [partBodiesFor] at hb
      · intro k2 uid2 ps
        simp
      · intro k2 b
        simp
    | .ok (some uid) =>
      simp only []
      obtain ⟨hpn1, hcp1⟩ := hfresh hu
      have hsp := entrySendPart_spec2 c key uid st1 { es with uploadId := some uid }
      rcases hz : entrySendPart c key uid st1 { es with uploadId := some uid }
        with ⟨st2, ev2, es2, r2⟩
      rw [hz] at hsp
      simp only at hsp
      obtain ⟨hev, huid2, htot2, hbuf2, hok2, herr2⟩ := hsp
      subst hev
      have hinv2 : entryInv es2 := by
        match r2 with
        | .ok () =>
          obtain ⟨etag, hcp, hpn⟩ := hok2 rfl
          exact entryInv_after_send { es with uploadId := some uid } es2 etag hinv hcp hpn
        | .error e =>
          obtain ⟨hcp, hpn⟩ := herr2 e rfl
          exact ⟨by rw [hpn, hcp]; exact hinv.1, by rw [hcp]; exact hinv.2⟩
      refine ⟨hinv2, ?_, htot2, ?_, ?_, ?_, ?_, ?_, ?_⟩
      · intro hnone
        rw [huid2] at hnone
        simp at hnone
      · intro hr
        simp only at hr
        subst hr
        exact ⟨hbuf2, by rw [huid2]; simp⟩
      · intro uid2
        by_cases h2 : uid = uid2
        · subst h2
          constructor
          · simp [partNumsFor, entryStart, hu, hpn1]
          · intro hr
            simp only at hr
            subst hr
            obtain ⟨etag, hcp, hpn⟩ := hok2 rfl
            simp [partNumsFor, entryStart, huid2, hpn, hpn1]
        · constructor
          · simp [partNumsFor, h2]
          · intro hr
            simp only at hr
            subst hr
            simp [partNumsFor, h2, entryStart, huid2, hu]
      · intro uid2 b hb
        simp only [partBodiesFor] at hb
        split at hb <;> (simp at hb; try exact hb)
      · intro k2 uid2 ps
        simp
      · intro k2 b
        simp
      · intro hr
        simp [writtenBytes]
  · simp only [entryFlush, hu]
    have hsp := entrySendPart_spec2 c key uid st es
    rcases hz : entrySendPart c key uid st es with ⟨st2, ev2, es2, r2⟩
    rw [hz] at hsp
    simp only at hsp
    obtain ⟨hev, huid2, htot2, hbuf2, hok2, herr2⟩ := hsp
    subst hev
    have hinv2 : entryInv es2 := by
      match r2 with
      | .ok () =>
        obtain ⟨etag, hcp, hpn⟩ := hok2 rfl
        exact entryInv_after_send es es2 etag hinv hcp hpn
      | .error e =>
        obtain ⟨hcp, hpn⟩ := herr2 e rfl
        exact ⟨by rw [hpn, hcp]; exact hinv.1, by rw [hcp]; exact hinv.2⟩
    refine ⟨hinv2, ?_, htot2, ?_, ?_, ?_, ?_, ?_, ?_⟩
    · intro hnone
      rw [huid2, hu] at hnone
      simp at hnone
    · intro hr
      exact ⟨hbuf2, by rw [huid2, hu]; simp⟩
    · intro uid2
      by_cases h2 : uid = uid2
      · subst h2
        constructor
        · simp [partNumsFor, entryStart, hu]
        · intro hr
          obtain ⟨etag, hcp, hpn⟩ := hok2 hr
          simp [partNumsFor, entryStart, huid2, hu, hpn]
      · constructor
        · simp [partNumsFor, h2]
        · intro hr
          simp [partNumsFor, h2, entryStart, huid2, hu]
    · intro uid2 b hb
      simp only [partBodiesFor] at hb
      split at hb <;> (simp at hb; try exact hb)
    · intro k2 uid2 ps
      simp
    · intro k2 b
      simp
    · intro hr
      simp [writtenBytes]

theorem range'_glue (a b : List Nat) (s : Nat)
    (ha : a = List.range' s a.length) (hb : b = List.range' (s + a.length) b.length) :
    a ++ b = List.range' s (a ++ b).length := by
  conv_lhs => rw [ha, hb]
  rw [List.range'_append_1, List.length_append]
  congr 1
  omega

theorem entryLoop_spec (c : S3Client σ) (key : String) (mx : Nat) :
    ∀ (cs : List Bytes) (st : σ) (es : EntrySt) (st1 : σ) (tr : List S3Event)
      (es1 : EntrySt) (r : Except String Unit),
    entryInv es → entryFresh es →
    entryLoop c key mx cs st es = (st1, tr, es1, r) →
    (entryInv es1 ∧ entryFresh es1 ∧
      (r = .ok () → es1.totalBytes = es.totalBytes + (cs.map List.length).sum) ∧
      (∀ uid2, partNumsFor uid2 tr =
          List.range' (entryStart es uid2) (partNumsFor uid2 tr).length ∧
        (r = .ok () → entryStart es1 uid2 =
          entryStart es uid2 + (partNumsFor uid2 tr).length)) ∧
      (∀ uid2 b, b ∈ partBodiesFor uid2 tr → mx ≤ b.length) ∧
      (∀ k2 uid2 ps, S3Event.completeMultipart k2 uid2 ps ∉ tr) ∧
      (∀ k2 b, S3Event.putObject k2 b ∉ tr) ∧
      (r = .ok () → writtenBytes tr + es1.buffer.length =
        es.buffer.length + (cs.map List.length).sum)) := by
  intro cs
  induction cs with
  | nil =>
    intro st es st1 tr es1 r hinv hfresh heq
    simp only [entryLoop, Prod.mk.injEq] at heq
    obtain ⟨h1, h2, h3, h4⟩ := heq
    subst h1; subst h2; subst h3; subst h4
    refine ⟨hinv, hfresh, by simp, ?_, ?_, by simp, by simp, by simp [writtenBytes]⟩
    · intro uid2
      exact ⟨by simp [partNumsFor], by simp [partNumsFor]⟩
    · intro uid2 b hb
      simp [partBodiesFor] at hb
  | cons chunk cs ih =>
    intro st es st1 tr es1 r hinv hfresh heq
    simp only [entryLoop] at heq
    split at heq
    · next hge =>
      have hfs := entryFlush_spec c key st
        { es with totalBytes := es.totalBytes + chunk.length, buffer := es.buffer ++ chunk }
        ⟨hinv.1, hinv.2⟩ hfresh
      rcases hz : entryFlush c key st
          { es with totalBytes := es.totalBytes + chunk.length, buffer := es.buffer ++ chunk }
        with ⟨stf, evf, esf, rf⟩
      rw [hz] at hfs heq
      simp only at hfs
      obtain ⟨finv, ffresh, ftot, fok, fnums, fbodies, fcomp, fput, fwb⟩ := hfs
      match rf with
      | .error e =>
        simp only [Prod.mk.injEq] at heq
        obtain ⟨h1, h2, h3, h4⟩ := heq
        subst h1; subst h2; subst h3; subst h4
        refine ⟨finv, ffresh, by intro h; simp at h, ?_, ?_, fcomp, fput,
          by intro h; simp at h⟩
        · intro uid2
          have hn := fnums uid2
          refine ⟨?_, by intro h; simp at h⟩
          rw [hn.1]
          simp [entryStart]
        · intro uid2 b hb
          have hbb := fbodies uid2 b hb
          subst hbb
          exact hge
      | .ok () =>
        simp only [] at heq
        rcases hl : entryLoop c key mx cs stf esf with ⟨st2, ev2, es3, r2⟩
        rw [hl] at heq
        simp only [Prod.mk.injEq] at heq
        obtain ⟨h1, h2, h3, h4⟩ := heq
        subst h1; subst h2; subst h3; subst h4
        have hrec := ih stf esf st2 ev2 es3 r2 finv ffresh hl
        obtain ⟨linv, lfresh, ltot, lnums, lbodies, lcomp, lput, lwb⟩ := hrec
        obtain ⟨fbuf, _⟩ := fok rfl
        refine ⟨linv, lfresh, ?_, ?_, ?_, ?_, ?_, ?_⟩
        · intro hr
          rw [ltot hr, ftot]
          simp only [List.map_cons, List.sum_cons]
          omega
        · intro uid2
          obtain ⟨hn1, hn2⟩ := fnums uid2
          obtain ⟨hm1, hm2⟩ := lnums uid2
          have hsA : entryStart
              { es with
                totalBytes := es.totalBytes + chunk.length
                buffer := es.buffer ++ chunk }
              uid2 = entryStart es uid2 := rfl
          rw [hsA] at hn1 hn2
          have hstep := hn2 rfl
          constructor
          · rw [partNumsFor_append]
            refine range'_glue _ _ _ hn1 ?_
            rw [← hstep]
            exact hm1
          · intro hr
            rw [hm2 hr, hstep, partNumsFor_append, List.length_append]
            omega
        · intro uid2 b hb
          rw [partBodiesFor_append] at hb
          rcases List.mem_append.mp hb with h | h
          · have hbb := fbodies uid2 b h
            subst hbb
            exact hge
          · exact lbodies uid2 b h
        · intro k2 uid2 ps hmem
          rcases List.mem_append.mp hmem with h | h
          · exact absurd h (fcomp k2 uid2 ps)
          · exact absurd h (lcomp k2 uid2 ps)
        · intro k2 b hmem
          rcases List.mem_append.mp hmem with h | h
          · exact absurd h (fput k2 b)
          · exact absurd h (lput k2 b)
        · intro hr
          rw [writtenBytes_append, fwb rfl]
          have hlw := lwb hr
          rw [fbuf] at hlw
          simp only [List.length_nil, List.length_append, List.map_cons,
            List.sum_cons] at *
          omega
    · next hge =>
      have hrec := ih st
        { es with totalBytes := es.totalBytes + chunk.length, buffer := es.buffer ++ chunk }
        st1 tr es1 r ⟨hinv.1, hinv.2⟩ hfresh heq
      obtain ⟨linv, lfresh, ltot, lnums, lbodies, lcomp, lput, lwb⟩ := hrec
      refine ⟨linv, lfresh, ?_, ?_, lbodies, lcomp, lput, ?_⟩
      · intro hr
        rw [ltot hr]
        simp only [List.map_cons, List.sum_cons]
        omega
      · intro uid2
        have hm := lnums uid2
        constructor
        · rw [hm.1]
          simp [entryStart]
        · intro hr
          rw [hm.2 hr]
          simp [entryStart]
      · intro hr
        have := lwb hr
        simp only [List.length_append, List.map_cons, List.sum_cons] at *
        omega

theorem entryCancel_aux (c : S3Client σ) (key : String) (u : Option String) (st : σ)
    (orig : String) :
    (∀ uid2, partNumsFor uid2 (entryCancel c key u st orig).2.1 = []) ∧
    (∀ uid2, partBodiesFor uid2 (entryCancel c key u st orig).2.1 = []) ∧
    writtenBytes (entryCancel c key u st orig).2.1 = 0 ∧
    (∀ k2 uid2 ps, S3Event.completeMultipart k2 uid2 ps ∉ (entryCancel c key u st orig).2.1) ∧
    (∀ k2 b, S3Event.putObject k2 b ∉ (entryCancel c key u st orig).2.1) := by
  match u with
  | none => simp [entryCancel, partNumsFor, partBodiesFor, writtenBytes]
  | some uid =>
    simp only [entryCancel]
    rcases ha : c.abortMultipart st key uid with ⟨ra, sta⟩
    match ra with
    | .error e => simp [partNumsFor, partBodiesFor, writtenBytes]
    | .ok () => simp [partNumsFor, partBodiesFor, writtenBytes]

theorem entryFinish_spec (c : S3Client σ) (key : String) (st : σ) (es : EntrySt)
    (hinv : entryInv es) :
    (∀ k2 uid2 ps, S3Event.completeMultipart k2 uid2 ps ∈ (entryFinish c key st es).trace →
      ps.map (fun cp => cp.partNumber) = List.range' 1 ps.length) ∧
    (∀ uid2, partNumsFor uid2 (entryFinish c key st es).trace =
      List.range' (entryStart es uid2)
        (partNumsFor uid2 (entryFinish c key st es).trace).length) ∧
    (∀ uid2, partBodiesFor uid2 (entryFinish c key st es).trace = [] ∨
      partBodiesFor uid2 (entryFinish c key st es).trace = [es.buffer]) ∧
    (∀ n, (entryFinish c key st es).res = .ok n →
      n = es.totalBytes ∧ writtenBytes (entryFinish c key st es).trace = es.buffer.length) ∧
    (∀ uid, es.uploadId = some uid → ∀ k2 b,
      S3Event.putObject k2 b ∉ (entryFinish c key st es).trace) ∧
    (∀ uid, es.uploadId = some uid → ∀ n, (entryFinish c key st es).res = .ok n →
      ∃ ps, S3Event.completeMultipart key uid ps ∈ (entryFinish c key st es).trace) ∧
    (es.uploadId = none → es.buffer ≠ [] →
      (entryFinish c key st es).trace = [S3Event.putObject key es.buffer] ∧
      ((c.putObject st key es.buffer).1 = .ok () →
        (entryFinish c key st es).res = .ok es.totalBytes)) ∧
    (es.uploadId = none → es.buffer = [] →
      (entryFinish c key st es).trace = [] ∧
      (entryFinish c key st es).res = .ok es.totalBytes) := by
  rcases hb : es.buffer with _ | ⟨b0, bs⟩ <;> rcases hu : es.uploadId with _ | uid
  · simp only [entryFinish, hb, hu]
    refine ⟨by simp, by simp [partNumsFor], by simp [partBodiesFor], ?_,
      by simp, by simp, by simp, by simp [writtenBytes]⟩
    intro n hn
    simp only [Except.ok.injEq] at hn
    subst hn
    exact ⟨rfl, by simp [writtenBytes]⟩
  · simp only [entryFinish, hb, hu]
    rcases hcm : c.completeMultipart st key uid es.completedParts with ⟨rc, st1⟩
    match rc with
    | .error e =>
      simp only []
      have hca := entryCancel_aux c key (some uid) st1 e
      rcases hec : entryCancel c key (some uid) st1 e with ⟨st2, ev2, e2⟩
      rw [hec] at hca
      simp only at hca
      obtain ⟨ca1, ca2, ca3, ca4, ca5⟩ := hca
      refine ⟨?_, ?_, ?_, by intro n hn; simp at hn, ?_, by intro u h n hn; simp at hn,
        by simp, by simp⟩
      · intro k2 uid2 ps hmem
        simp at hmem
        rcases hmem with ⟨h1, h2, h3⟩ | h
        · subst h3; exact hinv.2
        · exact absurd h (ca4 k2 uid2 ps)
      · intro uid2
        simp only [partNumsFor]
        rw [ca1 uid2]
        rfl
      · intro uid2
        left
        simp only [partBodiesFor]
        exact ca2 uid2
      · intro u hsome k2 b2 hmem
        simp at hmem
        exact absurd hmem (ca5 k2 b2)
    | .ok () =>
      simp only []
      refine ⟨?_, ?_, ?_, ?_, by simp, ?_, by simp, by simp⟩
      · intro k2 uid2 ps hmem
        simp at hmem
        obtain ⟨h1, h2, h3⟩ := hmem
        subst h3
        exact hinv.2
      · intro uid2
        simp [partNumsFor]
      · intro uid2
        left
        simp [partBodiesFor]
      · intro n hn
        simp only [Except.ok.injEq] at hn
        subst hn
        exact ⟨rfl, by simp [writtenBytes]⟩
      · intro u hsome n hn
        simp only [Option.some.injEq] at hsome
        subst hsome
        exact ⟨es.completedParts, by simp⟩
  · simp only [entryFinish, hb, hu]
    rcases hp : c.putObject st key (b0 :: bs) with ⟨rp, st1⟩
    match rp with
    | .error e =>
      simp only []
      refine ⟨by simp, by simp [partNumsFor], ?_, by intro n hn; simp at hn,
        by simp [hu], by simp [hu], ?_, by simp⟩
      · intro uid2
        left
        simp [partBodiesFor]
      · intro _ hne
        refine ⟨by simp, ?_⟩
        intro hok
        simp at hok
    | .ok () =>
      simp only []
      refine ⟨by simp, by simp [partNumsFor], ?_, ?_, by simp [hu], by simp [hu],
        ?_, by simp⟩
      · intro uid2
        left
        simp [partBodiesFor]
      · intro n hn
        simp only [Except.ok.injEq] at hn
        subst hn
        exact ⟨rfl, by simp [writtenBytes]⟩
      · intro _ hne
        exact ⟨by simp, by simp⟩
  · simp only [entryFinish, hb, hu]
    have hsp := entrySendPart_spec2 c key uid st es
    rcases hz : entrySendPart c key uid st es with ⟨st1, ev, es1, r⟩
    rw [hz] at hsp
    simp only at hsp
    obtain ⟨hev, huid1, htot1, hbuf1, hok1, herr1⟩ := hsp
    subst hev
    match r with
    | .error e =>
      simp only []
      have hca := entryCancel_aux c key (some uid) st1 e
      rcases hec : entryCancel c key (some uid) st1 e with ⟨st2, ev2, e2⟩
      rw [hec] at hca
      simp only at hca
      obtain ⟨ca1, ca2, ca3, ca4, ca5⟩ := hca
      refine ⟨?_, ?_, ?_, by intro n hn; simp at hn, ?_, by intro u h n hn; simp at hn,
        by simp [hu], by simp [hu]⟩
      · intro k2 uid2 ps hmem
        simp at hmem
        exact absurd hmem (ca4 k2 uid2 ps)
      · intro uid2
        by_cases h2 : uid = uid2
        · subst h2
          rw [partNumsFor_append, ca1 uid]
          simp [partNumsFor, entryStart, hu]
        · rw [partNumsFor_append, ca1 uid2]
          simp [partNumsFor, h2]
      · intro uid2
        by_cases h2 : uid = uid2
        · subst h2
          right
          rw [partBodiesFor_append, ca2 uid]
          simp [partBodiesFor, hb]
        · left
          rw [partBodiesFor_append, ca2 uid2]
          simp [partBodiesFor, h2]
      · intro u hsome k2 b2 hmem
        simp at hmem
        exact absurd hmem (ca5 k2 b2)
    | .ok () =>
      simp only []
      obtain ⟨etag, hcp1, hpn1⟩ := hok1 rfl
      have hinv1 : entryInv es1 := entryInv_after_send es es1 etag hinv hcp1 hpn1
      rcases hcm : c.completeMultipart st1 key uid es1.completedParts with ⟨rc, st2⟩
      match rc with
      | .error e =>
        simp only []
        have hca := entryCancel_aux c key (some uid) st2 e
        rcases hec : entryCancel c key (some uid) st2 e with ⟨st3, ev3, e3⟩
        rw [hec] at hca
        simp only at hca
        obtain ⟨ca1, ca2, ca3, ca4, ca5⟩ := hca
        refine ⟨?_, ?_, ?_, by intro n hn; simp at hn, ?_,
          by intro u h n hn; simp at hn, by simp [hu], by simp [hu]⟩
        · intro k2 uid2 ps hmem
          simp at hmem
          rcases hmem with ⟨h1, h2, h3⟩ | h
          · subst h3; exact hinv1.2
          · exact absurd h (ca4 k2 uid2 ps)
        · intro uid2
          by_cases h2 : uid = uid2
          · subst h2
            rw [partNumsFor_append]
            simp [partNumsFor, ca1 uid, entryStart, hu]
          · rw [partNumsFor_append]
            simp [partNumsFor, ca1 uid2, h2]
        · intro uid2
          by_cases h2 : uid = uid2
          · subst h2
            right
            rw [partBodiesFor_append]
            simp [partBodiesFor, ca2 uid, hb]
          · left
            rw [partBodiesFor_append]
            simp [partBodiesFor, ca2 uid2, h2]
        · intro u hsome k2 b2 hmem
          simp at hmem
          exact absurd hmem (ca5 k2 b2)
      | .ok () =>
        simp only []
        refine ⟨?_, ?_, ?_, ?_, by simp [hu], ?_, by simp [hu], by simp [hu]⟩
        · intro k2 uid2 ps hmem
          simp at hmem
          obtain ⟨h1, h2, h3⟩ := hmem
          subst h3
          exact hinv1.2
        · intro uid2
          by_cases h2 : uid = uid2
          · subst h2
            rw [partNumsFor_append]
            simp [partNumsFor, entryStart, hu]
          · rw [partNumsFor_append]
            simp [partNumsFor, h2]
        · intro uid2
          by_cases h2 : uid = uid2
          · subst h2
            right
            rw [partBodiesFor_append]
            simp [partBodiesFor, hb]
          · left
            rw [partBodiesFor_append]
            simp [partBodiesFor, h2]
        · intro n hn
          simp at hn
          subst hn
          refine ⟨rfl, ?_⟩
          simp [writtenBytes, hb]
        · intro u hsome n hn
          injection hsome with hsome
          subst hsome
          exact ⟨es1.completedParts, by simp⟩

theorem entryUpload_aux (c : S3Client σ) (key : String) (mx : Nat) (chunks : List Bytes)
    (st : σ) :
    partsContig (entryUpload c key mx chunks st).trace ∧
    (∀ uid2, partNumsFor uid2 (entryUpload c key mx chunks st).trace =
      List.range' 1 (partNumsFor uid2 (entryUpload c key mx chunks st).trace).length) ∧
    (∀ uid2 b, b ∈ (partBodiesFor uid2 (entryUpload c key mx chunks st).trace).dropLast →
      mx ≤ b.length) ∧
    (∀ n, (entryUpload c key mx chunks st).res = .ok n →
      n = (chunks.map List.length).sum ∧
      writtenBytes (entryUpload c key mx chunks st).trace = n) := by
  have hinv0 : entryInv ⟨0, [], none, [], 1⟩ := ⟨rfl, rfl⟩
  have hfresh0 : entryFresh ⟨0, [], none, [], 1⟩ := fun _ => ⟨rfl, rfl⟩
  rcases hl : entryLoop c key mx chunks st ⟨0, [], none, [], 1⟩ with ⟨st1, ev1, es1, r⟩
  have hls := entryLoop_spec c key mx chunks st ⟨0, [], none, [], 1⟩ st1 ev1 es1 r
    hinv0 hfresh0 hl
  obtain ⟨linv, lfresh, ltot, lnums, lbodies, lcomp, lput, lwb⟩ := hls
  have hstart0 : ∀ uid2, entryStart ⟨0, [], none, [], 1⟩ uid2 = 1 := by
    intro uid2; simp [entryStart]
  simp only [entryUpload, hl]
  match r with
  | .error e =>
    simp only []
    have hca := entryCancel_aux c key es1.uploadId st1 e
    rcases hec : entryCancel c key es1.uploadId st1 e with ⟨st2, ev2, e2⟩
    rw [hec] at hca
    simp only at hca
    obtain ⟨ca1, ca2, ca3, ca4, ca5⟩ := hca
    refine ⟨?_, ?_, ?_, by intro n hn; simp at hn⟩
    · intro k2 uid2 ps hmem
      rcases List.mem_append.mp hmem with h | h
      · exact absurd h (lcomp k2 uid2 ps)
      · exact absurd h (ca4 k2 uid2 ps)
    · intro uid2
      rw [partNumsFor_append, ca1 uid2, List.append_nil]
      have h1 := (lnums uid2).1
      rw [hstart0 uid2] at h1
      exact h1
    · intro uid2 b hb
      rw [partBodiesFor_append, ca2 uid2, List.append_nil] at hb
      exact lbodies uid2 b (List.mem_of_mem_dropLast hb)
  | .ok () =>
    simp only []
    have hfs := entryFinish_spec c key st1 es1 linv
    obtain ⟨fcontig, fnums, fbodies, fres, fput2, fcomp2, fp1, fp2⟩ := hfs
    refine ⟨?_, ?_, ?_, ?_⟩
    · intro k2 uid2 ps hmem
      rcases List.mem_append.mp hmem with h | h
      · exact absurd h (lcomp k2 uid2 ps)
      · exact fcontig k2 uid2 ps h
    · intro uid2
      rw [partNumsFor_append]
      refine range'_glue _ _ _ ?_ ?_
      · have h1 := (lnums uid2).1
        rw [hstart0 uid2] at h1
        exact h1
      · have hst := (lnums uid2).2 rfl
        rw [hstart0 uid2] at hst
        rw [← hst]
        exact fnums uid2
    · intro uid2 b hb
      rw [partBodiesFor_append] at hb
      rcases fbodies uid2 with hB | hB
      · rw [hB, List.append_nil] at hb
        exact lbodies uid2 b (List.mem_of_mem_dropLast hb)
      · rw [hB, List.dropLast_concat] at hb
        exact lbodies uid2 b hb
    · intro n hn
      obtain ⟨hn1, hn2⟩ := fres n hn
      have htot := ltot rfl
      have hwb := lwb rfl
      simp at htot hwb
      rw [writtenBytes_append, hn2]
      exact ⟨by omega, by omega⟩

theorem unzipCancel_events (c : S3Client σ) :
    ∀ (ents : List (String × Option String)) (st : σ),
    (∀ k2 uid2 ps, S3Event.completeMultipart k2 uid2 ps ∉ (unzipCancel c ents st).2) ∧
    writtenBytes (unzipCancel c ents st).2 = 0 := by
  intro ents
  induction ents with
  | nil => intro st; simp [unzipCancel, writtenBytes]
  | cons ent rest ih =>
    intro st
    rcases ent with ⟨k, u⟩
    match u with
    | none =>
      simp only [unzipCancel]
      exact ih st
    | some uid =>
      simp only [unzipCancel]
      have hi := ih (c.abortMultipart st k uid).2
      refine ⟨?_, ?_⟩
      · intro k2 uid2 ps hmem
        rcases List.mem_cons.mp hmem with h | h
        · simp at h
        · exact absurd h (hi.1 k2 uid2 ps)
      · simp only [writtenBytes]
        exact hi.2

theorem unzipEntries_aux (c : S3Client σ) (f : Bytes → List Bytes) (root : String)
    (mx : Nat) :
    ∀ (es : List (String × Bytes)) (st : σ) (ents : List (String × Option String))
      (keys : List String) (total : Nat) (st1 : σ) (tr : List S3Event)
      (ents1 : List (String × Option String)) (r : Except String (List String × Nat)),
    unzipEntries c f root mx es st ents keys total = (st1, tr, ents1, r) →
    partsContig tr ∧
    (∀ ks n, r = .ok (ks, n) → n = total + writtenBytes tr) := by
  intro es
  induction es with
  | nil =>
    intro st ents keys total st1 tr ents1 r heq
    simp only [unzipEntries, Prod.mk.injEq] at heq
    obtain ⟨h1, h2, h3, h4⟩ := heq
    subst h1; subst h2; subst h3; subst h4
    refine ⟨by intro k uid ps hmem; simp at hmem, ?_⟩
    intro ks n hn
    simp only [Except.ok.injEq, Prod.mk.injEq] at hn
    simp [writtenBytes, ← hn.2]
  | cons ent rest ih =>
    intro st ents keys total st1 tr ents1 r heq
    rcases ent with ⟨p, content⟩
    simp only [unzipEntries] at heq
    have hea := entryUpload_aux c (root ++ "/" ++ p) mx (f content) st
    obtain ⟨econtig, enums, ebodies, eres⟩ := hea
    split at heq
    · next e2 hres =>
      simp only [Prod.mk.injEq] at heq
      obtain ⟨h1, h2, h3, h4⟩ := heq
      subst h1; subst h2; subst h3; subst h4
      refine ⟨?_, by intro ks n hn; simp at hn⟩
      intro k uid ps hmem
      rcases List.mem_cons.mp hmem with h | h
      · simp at h
      · exact econtig k uid ps h
    · next bytes hres =>
      rcases hrec : unzipEntries c f root mx rest
          (entryUpload c (root ++ "/" ++ p) mx (f content) st).s3
          (ents ++ [(root ++ "/" ++ p,
            (entryUpload c (root ++ "/" ++ p) mx (f content) st).uploadId)])
          (keys ++ [root ++ "/" ++ p]) (total + bytes)
        with ⟨st2, tr2, ents2, r2⟩
      rw [hrec] at heq
      simp only [Prod.mk.injEq] at heq
      obtain ⟨h1, h2, h3, h4⟩ := heq
      subst h1; subst h2; subst h3; subst h4
      have hi := ih _ _ _ _ _ _ _ _ hrec
      refine ⟨?_, ?_⟩
      · intro k uid ps hmem
        rcases List.mem_cons.mp hmem with h | h
        · simp at h
        · rcases List.mem_append.mp h with h2 | h2
          · exact econtig k uid ps h2
          · rcases List.mem_cons.mp h2 with h3 | h3
            · simp at h3
            · exact hi.1 k uid ps h3
      · intro ks n hn
        have hnn := hi.2 ks n hn
        obtain ⟨hb1, hb2⟩ := eres bytes hres
        simp only [writtenBytes]
        rw [writtenBytes_append]
        simp only [writtenBytes]
        rw [hb2]
        omega

theorem unzipRun_aux (c : S3Client σ) (f : Bytes → List Bytes) (opts : S3UnzipOptions)
    (st0 : σ) :
    partsContig (unzipRun c f opts st0).trace ∧
    (∀ r, (unzipRun c f opts st0).res = .ok r →
      r.extractedBytes = writtenBytes (unzipRun c f opts st0).trace) := by
  simp only [unzipRun]
  split
  · next e st1 heq =>
    refine ⟨by intro k uid ps hmem; simp at hmem, by intro r hr; simp at hr⟩
  · next st1 heq =>
    refine ⟨by intro k uid ps hmem; simp at hmem, by intro r hr; simp at hr⟩
  · next body st1 heq =>
    split
    · refine ⟨by intro k uid ps hmem; simp at hmem, by intro r hr; simp at hr⟩
    · next entries hdec =>
      rcases hent : unzipEntries c f (stripLeadingSlash opts.outputRoot)
          (opts.maxPartSize.getD defaultMaxPartSize) entries st1 [] [] 0
        with ⟨st2, tr2, ents, r2⟩
      have hua := unzipEntries_aux c f (stripLeadingSlash opts.outputRoot)
        (opts.maxPartSize.getD defaultMaxPartSize) entries st1 [] [] 0 st2 tr2 ents r2 hent
      match r2 with
      | .error e =>
        simp only []
        rcases hcc : unzipCancel c ents st2 with ⟨st3, tr3⟩
        have hce := unzipCancel_events c ents st2
        rw [hcc] at hce
        simp only at hce
        refine ⟨?_, by intro r hr; simp at hr⟩
        intro k uid ps hmem
        rcases List.mem_cons.mp hmem with h | h
        · simp at h
        · rcases List.mem_append.mp h with h2 | h2
          · exact hua.1 k uid ps h2
          · exact absurd h2 (hce.1 k uid ps)
      | .ok (keys, total) =>
        simp only []
        refine ⟨?_, ?_⟩
        · intro k uid ps hmem
          rcases List.mem_cons.mp hmem with h | h
          · simp at h
          · exact hua.1 k uid ps h
        · intro r hr
          simp only [Except.ok.injEq] at hr
          subst hr
          simp only [writtenBytes]
          have h2 := hua.2 keys total rfl
          omega

theorem entryLoop_noflush (c : S3Client σ) (key : String) (mx : Nat) :
    ∀ (cs : List Bytes) (st : σ) (es : EntrySt),
    es.buffer.length + (cs.map List.length).sum < mx →
    entryLoop c key mx cs st es =
      (st, [],
        { es with
            totalBytes := es.totalBytes + (cs.map List.length).sum
            buffer := es.buffer ++ cs.flatten },
        .ok ()) := by
  intro cs
  induction cs with
  | nil =>
    intro st es h
    simp [entryLoop]
  | cons chunk cs ih =>
    intro st es h
    simp only [entryLoop]
    rw [if_neg ?hne]
    case hne =>
      simp only [List.length_append, List.map_cons, List.sum_cons] at h ⊢
      omega
    rw [ih st _ ?hlt]
    case hlt =>
      simp only [List.length_append, List.map_cons, List.sum_cons] at h ⊢
      omega
    simp only [Prod.mk.injEq, EntrySt.mk.injEq, List.map_cons, List.sum_cons,
      List.flatten_cons, List.append_assoc]
    refine ⟨trivial, trivial, ⟨by omega, ?_⟩, trivial⟩
    exact ⟨trivial, trivial, trivial, trivial⟩

theorem entryFlush_keepSome (c : S3Client σ) (key : String) (st : σ) (es : EntrySt)
    (u : String) (hu : es.uploadId = some u) :
    (entryFlush c key st es).2.2.1.uploadId = some u := by
  simp only [entryFlush, hu]
  rw [(entrySendPart_spec2 c key u st es).2.1, hu]

theorem entryLoop_keepSome (c : S3Client σ) (key : String) (mx : Nat) :
    ∀ (cs : List Bytes) (st : σ) (es : EntrySt) (u : String),
    es.uploadId = some u →
    (entryLoop c key mx cs st es).2.2.1.uploadId = some u := by
  intro cs
  induction cs with
  | nil =>
    intro st es u hu
    simpa [entryLoop] using hu
  | cons chunk cs ih =>
    intro st es u hu
    simp only [entryLoop]
    split
    · have hk := entryFlush_keepSome c key st
        { es with totalBytes := es.totalBytes + chunk.length, buffer := es.buffer ++ chunk }
        u hu
      rcases hz : entryFlush c key st
          { es with totalBytes := es.totalBytes + chunk.length, buffer := es.buffer ++ chunk }
        with ⟨st1, ev, es2, rf⟩
      rw [hz] at hk
      simp only at hk
      match rf with
      | .error e => simpa using hk
      | .ok () =>
        simp only []
        rcases hl : entryLoop c key mx cs st1 es2 with ⟨st2, ev2, es3, r2⟩
        have := ih st1 es2 u hk
        rw [hl] at this
        simpa using this
    · exact ih st _ u hu

theorem entryLoop_create (c : S3Client σ) (key : String) (mx : Nat) :
    ∀ (cs : List Bytes) (st : σ) (es : EntrySt),
    entryInv es → entryFresh es →
    es.uploadId = none → cs ≠ [] → mx ≤ es.buffer.length + (cs.map List.length).sum →
    S3Event.createMultipart key ∈ (entryLoop c key mx cs st es).2.1 ∧
    ((entryLoop c key mx cs st es).2.2.2 = .ok () →
      (entryLoop c key mx cs st es).2.2.1.uploadId ≠ none) := by
  intro cs
  induction cs with
  | nil =>
    intro st es _ _ _ hne _
    exact absurd rfl hne
  | cons chunk cs ih =>
    intro st es hinv hfresh hu hne hge
    simp only [entryLoop]
    split
    · next hth =>
      have hfs := entryFlush_spec c key st
        { es with totalBytes := es.totalBytes + chunk.length, buffer := es.buffer ++ chunk }
        ⟨hinv.1, hinv.2⟩ (fun h => hfresh h)
      rcases hz : entryFlush c key st
          { es with totalBytes := es.totalBytes + chunk.length, buffer := es.buffer ++ chunk }
        with ⟨st1, ev, es2, rf⟩
      rw [hz] at hfs
      simp only at hfs
      have hcr : S3Event.createMultipart key ∈ ev := by
        revert hz
        simp only [entryFlush, hu]
        rcases hcm : c.createMultipart st key with ⟨rc, stc⟩
        match rc with
        | .error e => intro hz; simp only [Prod.mk.injEq] at hz; simp [← hz.2.1]
        | .ok none => intro hz; simp only [Prod.mk.injEq] at hz; simp [← hz.2.1]
        | .ok (some uc) =>
          rcases hsp : entrySendPart c key uc stc
              { es with totalBytes := es.totalBytes + chunk.length,
                        buffer := es.buffer ++ chunk, uploadId := some uc }
            with ⟨sts, evs, ess, rs⟩
          intro hz
          simp only [hsp, Prod.mk.injEq] at hz
          simp [← hz.2.1]
      match rf with
      | .error e =>
        simp only []
        exact ⟨hcr, by intro h; simp at h⟩
      | .ok () =>
        simp only []
        obtain ⟨_, hsome⟩ := hfs.2.2.2.1 rfl
        rcases hu2 : es2.uploadId with _ | u2
        · exact absurd hu2 hsome
        rcases hl : entryLoop c key mx cs st1 es2 with ⟨st2, ev2, es3, r2⟩
        have hk := entryLoop_keepSome c key mx cs st1 es2 u2 hu2
        rw [hl] at hk
        simp only at hk ⊢
        refine ⟨List.mem_append.mpr (Or.inl hcr), ?_⟩
        intro _
        simp [hk]
    · next hth =>
      have hcs : cs ≠ [] := by
        intro hcsnil
        subst hcsnil
        simp only [List.length_append, List.map_cons, List.map_nil, List.sum_cons,
          List.sum_nil] at hth hge
        omega
      have hge2 : mx ≤
          ({ es with
              totalBytes := es.totalBytes + chunk.length
              buffer := es.buffer ++ chunk } : EntrySt).buffer.length +
          (cs.map List.length).sum := by
        simp only [List.length_append, List.map_cons, List.sum_cons] at hge ⊢
        by_cases h2 : mx ≤ (es.buffer ++ chunk).length
        · simp only [List.length_append] at h2
          omega
        · simp only [List.length_append] at h2
          omega
      exact ih st _ ⟨hinv.1, hinv.2⟩ (fun h => hfresh h) hu hcs hge2

/-- C1: for every multipart upload session that completes successfully — the
encoder-output session of `zipRun` and each per-entry session of
`unzipRun` / `entryUpload` — the parts list handed to
`completeMultipartUpload` carries exactly the contiguous part numbers
`1..N` in order, and the part numbers of the `uploadPart` sends of any one
session form the run `1..N` in the order the bytes were produced. -/
theorem c1_contiguous_parts (c : S3Client σ) (f : Bytes → List Bytes)
    (zopts : S3ArchiverOptions) (uopts : S3UnzipOptions) (key : String) (mx : Nat)
    (chunks : List Bytes) (st0 st1 st2 : σ) :
    partsContig (zipRun c f zopts st0).trace ∧
    partsContig (unzipRun c f uopts st1).trace ∧
    (∀ uid, partNumsFor uid (zipRun c f zopts st0).trace =
      List.range' 1 (partNumsFor uid (zipRun c f zopts st0).trace).length) ∧
    (∀ uid, partNumsFor uid (entryUpload c key mx chunks st2).trace =
      List.range' 1 (partNumsFor uid (entryUpload c key mx chunks st2).trace).length) :=
  ⟨(zipRun_aux c f zopts st0).1, (unzipRun_aux c f uopts st1).1,
   (zipRun_aux c f zopts st0).2.1, (entryUpload_aux c key mx chunks st2).2.1⟩

/-- C1 witness: `partsContig` instantiated on the concrete successful runs
`zipRunAB` and `unzipRunAB`, whose traces each contain one
`completeMultipartUpload` with parts `[1]`. -/
theorem c1_contiguous_parts_witness :
    partsContig zipRunAB.trace ∧ partsContig unzipRunAB.trace :=
  ⟨(c1_contiguous_parts honest oneChunk zipOptsAB
      { inputKey := "out/archive.zip", outputRoot := "ex" } "k" 1 [] storeAB zipRunAB.s3
      storeAB).1,
   (c1_contiguous_parts honest oneChunk zipOptsAB
      { inputKey := "out/archive.zip", outputRoot := "ex" } "k" 1 [] storeAB zipRunAB.s3
      storeAB).2.1⟩

/-- C9: for every successful job, the returned total — `zipFileSize` for
zip, `extractedBytes` for unzip — equals the total number of bytes actually
handed to the object store by the run's `uploadPart` and `putObject`
calls. -/
theorem c9_returned_sizes (c : S3Client σ) (f : Bytes → List Bytes)
    (zopts : S3ArchiverOptions) (uopts : S3UnzipOptions) (st0 st1 : σ) :
    (∀ r, (zipRun c f zopts st0).res = .ok r →
      r.zipFileSize = writtenBytes (zipRun c f zopts st0).trace) ∧
    (∀ r, (unzipRun c f uopts st1).res = .ok r →
      r.extractedBytes = writtenBytes (unzipRun c f uopts st1).trace) :=
  ⟨(zipRun_aux c f zopts st0).2.2.2, (unzipRun_aux c f uopts st1).2⟩

/-- C9 witness: the concrete zip run `zipRunAB` returns size 12 and wrote
12 bytes; the concrete unzip run `unzipRunAB` returns 5 extracted bytes
and wrote 5 bytes. -/
theorem c9_returned_sizes_witness :
    zipRunAB.res = .ok ⟨12, "archive.zip"⟩ ∧
    (12 : Nat) = writtenBytes zipRunAB.trace ∧
    unzipRunAB.res = .ok ⟨["ex/a", "ex/b"], 5⟩ ∧
    (5 : Nat) = writtenBytes unzipRunAB.trace :=
  ⟨rfl,
   (c9_returned_sizes honest oneChunk zipOptsAB
      { inputKey := "out/archive.zip", outputRoot := "ex" } storeAB zipRunAB.s3).1
      ⟨12, "archive.zip"⟩ rfl,
   rfl,
   (c9_returned_sizes honest oneChunk zipOptsAB
      { inputKey := "out/archive.zip", outputRoot := "ex" } storeAB zipRunAB.s3).2
      ⟨["ex/a", "ex/b"], 5⟩ rfl⟩

/-- C10: `maxPartSize` is a lower threshold, not an upper bound, on part
size: on both paths every uploaded part except possibly the final
remainder is at least `maxPartSize` long, and a part may strictly exceed
it — in the concrete run `zipBigPart` (threshold 2) the whole 7-byte
buffer is sent as a single part. -/
theorem c10_threshold_lower_bound (c : S3Client σ) (f : Bytes → List Bytes)
    (zopts : S3ArchiverOptions) (key : String) (mx : Nat) (chunks : List Bytes)
    (st0 st1 : σ) :
    (∀ uid b, b ∈ (partBodiesFor uid (zipRun c f zopts st0).trace).dropLast →
      zopts.maxPartSize.getD defaultMaxPartSize ≤ b.length) ∧
    (∀ uid b, b ∈ (partBodiesFor uid (entryUpload c key mx chunks st1).trace).dropLast →
      mx ≤ b.length) ∧
    partBodiesFor "u0" zipBigPart.trace = [[1, 1, 102, 3, 1, 2, 3]] ∧
    2 < ([1, 1, 102, 3, 1, 2, 3] : Bytes).length :=
  ⟨(zipRun_aux c f zopts st0).2.2.1, (entryUpload_aux c key mx chunks st1).2.2.1,
   by decide, by decide⟩

/-- C10 witness: in the concrete run `zipManyParts` (threshold 2) the
non-final part `[1, 1]` is at least 2 bytes long, by the theorem applied at
that run. -/
theorem c10_threshold_lower_bound_witness :
    [1, 1] ∈ (partBodiesFor "u0" zipManyParts.trace).dropLast ∧
    (2 : Nat) ≤ ([1, 1] : Bytes).length :=
  ⟨by decide,
   (c10_threshold_lower_bound honest byteChunks
      { inputKeys := ["f"], outputKey := "o.zip", maxPartSize := some 2 }
      "k" 0 [] storeBig storeBig).1 "u0" [1, 1] (by decide)⟩

/-- C8 counterexample: in the concrete run `unzipExact` the single entry's
total byte count (2) never **exceeds** `maxPartSize` (2), yet the
destination writer creates a multipart session and performs no direct
object write — the code's threshold test is `>=`, not `>`. -/
theorem c8_counterexample :
    unzipExact.res = .ok ⟨["ex/f"], 2⟩ ∧
    unzipExact.trace.any isCreate = true ∧
    unzipExact.trace.any isPut = false :=
  ⟨rfl, by decide, by decide⟩

/-- C8 amended: the unzip destination writer goes multipart as soon as the
buffered bytes **reach** `maxPartSize` (an entry whose total equals the
threshold already creates a session and never issues a direct write); it
performs exactly one direct object write only when the total stays
strictly below `maxPartSize` and the entry is non-empty; and an entry
with no bytes issues no store call at all. -/
theorem c8_amended (c : S3Client σ) (key : String) (mx : Nat) (chunks : List Bytes)
    (st : σ) :
    ((chunks.map List.length).sum < mx → chunks.flatten ≠ [] →
      (entryUpload c key mx chunks st).trace = [S3Event.putObject key chunks.flatten] ∧
      ((c.putObject st key chunks.flatten).1 = .ok () →
        (entryUpload c key mx chunks st).res = .ok (chunks.map List.length).sum)) ∧
    ((chunks.map List.length).sum < mx → chunks.flatten = [] →
      (entryUpload c key mx chunks st).trace = [] ∧
      (entryUpload c key mx chunks st).res = .ok 0) ∧
    (mx ≤ (chunks.map List.length).sum → chunks ≠ [] →
      S3Event.createMultipart key ∈ (entryUpload c key mx chunks st).trace ∧
      (∀ k2 b, S3Event.putObject k2 b ∉ (entryUpload c key mx chunks st).trace)) := by
  refine ⟨?_, ?_, ?_⟩
  · intro hlt hnf
    have hnl := entryLoop_noflush c key mx chunks st ⟨0, [], none, [], 1⟩ (by simpa using hlt)
    simp only [entryUpload, hnl]
    simp only [List.nil_append]
    have hinv1 : entryInv ⟨0 + (chunks.map List.length).sum, chunks.flatten, none, [], 1⟩ :=
      ⟨rfl, rfl⟩
    have hfs := entryFinish_spec c key st
      ⟨0 + (chunks.map List.length).sum, chunks.flatten, none, [], 1⟩ hinv1
    obtain ⟨-, -, -, -, -, -, fp1, -⟩ := hfs
    obtain ⟨htr, hres⟩ := fp1 rfl hnf
    simp only at htr hres
    refine ⟨by rw [htr], ?_⟩
    intro hput
    rw [hres hput]
    simp
  · intro hlt hf
    have hnl := entryLoop_noflush c key mx chunks st ⟨0, [], none, [], 1⟩ (by simpa using hlt)
    simp only [entryUpload, hnl, hf]
    have hsum : (chunks.map List.length).sum = 0 := by
      have := List.length_flatten chunks
      rw [hf] at this
      simp at this
      omega
    simp [entryFinish, hsum]
  · intro hge hne
    have hinv0 : entryInv ⟨0, [], none, [], 1⟩ := ⟨rfl, rfl⟩
    have hfresh0 : entryFresh ⟨0, [], none, [], 1⟩ := fun _ => ⟨rfl, rfl⟩
    have hcr := entryLoop_create c key mx chunks st ⟨0, [], none, [], 1⟩ hinv0 hfresh0
      rfl hne (by simpa using hge)
    rcases hl : entryLoop c key mx chunks st ⟨0, [], none, [], 1⟩ with ⟨st1, ev1, es1, r⟩
    rw [hl] at hcr
    simp only at hcr
    have hls := entryLoop_spec c key mx chunks st ⟨0, [], none, [], 1⟩ st1 ev1 es1 r
      hinv0 hfresh0 hl
    obtain ⟨linv, lfresh, ltot, lnums, lbodies, lcomp, lput, lwb⟩ := hls
    simp only [entryUpload, hl]
    match r with
    | .error e =>
      simp only []
      have hca := entryCancel_aux c key es1.uploadId st1 e
      rcases hec : entryCancel c key es1.uploadId st1 e with ⟨st2, ev2, e2⟩
      rw [hec] at hca
      simp only at hca
      refine ⟨List.mem_append.mpr (Or.inl hcr.1), ?_⟩
      intro k2 b hmem
      rcases List.mem_append.mp hmem with h | h
      · exact absurd h (lput k2 b)
      · exact absurd h (hca.2.2.2.2 k2 b)
    | .ok () =>
      simp only []
      have hidne := hcr.2 rfl
      rcases hu1 : es1.uploadId with _ | u1
      · exact absurd hu1 hidne
      have hfs := entryFinish_spec c key st1 es1 linv
      refine ⟨List.mem_append.mpr (Or.inl hcr.1), ?_⟩
      intro k2 b hmem
      rcases List.mem_append.mp hmem with h | h
      · exact absurd h (lput k2 b)
      · exact absurd h (hfs.2.2.2.2.1 u1 hu1 k2 b)

/-- C8 amended witness: a 1-byte entry under threshold 5 is stored with one
direct object write and result 1; a 2-byte entry under threshold 2 creates
a multipart session. -/
theorem c8_amended_witness :
    (entryUpload honest "k" 5 [[7]] (⟨[], [], 0⟩ : Store)).trace =
      [S3Event.putObject "k" [7]] ∧
    (entryUpload honest "k" 5 [[7]] (⟨[], [], 0⟩ : Store)).res = .ok 1 ∧
    S3Event.createMultipart "k" ∈
      (entryUpload honest "k" 2 [[7, 8]] (⟨[], [], 0⟩ : Store)).trace :=
  ⟨((c8_amended honest "k" 5 [[7]] ⟨[], [], 0⟩).1 (by decide) (by decide)).1,
   ((c8_amended honest "k" 5 [[7]] ⟨[], [], 0⟩).1 (by decide) (by decide)).2 rfl,
   ((c8_amended honest "k" 2 [[7, 8]] ⟨[], [], 0⟩).2.2 (by decide) (by decide)).1⟩

theorem honest_putObject (st : Store) (k : String) (b : Bytes) :
    honest.putObject st k b = (.ok (), { st with objects := (k, b) :: st.objects }) := rfl

theorem honest_createMultipart (st : Store) (k : String) :
    honest.createMultipart st k =
      (.ok (some (uidFor st.nextId)),
       { st with
           sessions := (uidFor st.nextId, ⟨k, []⟩) :: st.sessions
           nextId := st.nextId + 1 }) := rfl

theorem honest_getObject_some (st : Store) (k : String) (v : Bytes)
    (h : lookupKey k st.objects = some v) :
    honest.getObject st k = (.ok (some v), st) := by
  simp only [honest]
  rw [h]

theorem honest_uploadPart_some (st : Store) (k uid : String) (pn : Nat) (body : Bytes)
    (sess : Session) (h : lookupKey uid st.sessions = some sess) :
    honest.uploadPart st k uid pn body =
      (.ok (some (etagFor pn)),
       { st with sessions :=
           (uid, ⟨sess.key, sess.parts ++ [(pn, etagFor pn, body)]⟩) :: st.sessions }) := by
  simp only [honest]
  rw [h]

theorem honest_completeMultipart_some (st : Store) (k uid : String)
    (ps : List CompletedPart) (sess : Session) (body : Bytes)
    (h : lookupKey uid st.sessions = some sess)
    (ha : assembleParts sess.parts ps = some body) :
    honest.completeMultipart st k uid ps =
      (.ok (),
       { st with
           objects := (k, body) :: st.objects
           sessions := removeKey uid st.sessions }) := by
  simp only [honest]
  rw [h]
  simp only []
  rw [ha]

theorem downloadFiles_honest (cnt : String → Bytes) :
    ∀ (ks : List String) (st : Store),
    (∀ k ∈ ks, lookupKey k st.objects = some (cnt k)) →
    downloadFiles honest ks st =
      ⟨st, (ks.map downloadSeg).flatten, .ok (ks.map (fun k => (basename k, cnt k)))⟩ := by
  intro ks
  induction ks with
  | nil => intro st h; simp [downloadFiles]
  | cons k ks ih =>
    intro st h
    simp only [downloadFiles]
    rw [honest_getObject_some st k (cnt k) (h k (by simp))]
    simp only []
    rw [ih st (fun k2 hk2 => h k2 (by simp [hk2]))]
    simp [downloadSeg, Except.map]

theorem uploadParts_honest_single (key : String) (mx : Nat) (ch : Bytes) (st : Store)
    (uid : String) (sess : Session) (hch : ch ≠ [])
    (hlk : lookupKey uid st.sessions = some sess) :
    uploadParts honest key mx [ch] [] st ⟨some uid, 1, []⟩ 0 =
      ⟨{ st with sessions :=
           (uid, ⟨sess.key, sess.parts ++ [(1, etagFor 1, [] ++ ch)]⟩) :: st.sessions },
       [S3Event.uploadPart key uid 1 ([] ++ ch)],
       ⟨some uid, 2, [] ++ [⟨1, etagFor 1⟩]⟩, 0 + ch.length, .ok ()⟩ := by
  by_cases hth : ([] ++ ch).length ≥ mx
  · simp only [uploadParts]
    rw [if_pos hth]
    simp only [zipSendPart]
    rw [honest_uploadPart_some st key uid 1 ([] ++ ch) sess hlk]
    simp only []
    rw [if_neg (by simp)]
    simp only [List.append_nil]
  · simp only [uploadParts]
    rw [if_neg hth]
    rw [if_pos (by simpa using List.length_pos.mpr hch)]
    simp only [zipSendPart]
    rw [honest_uploadPart_some st key uid 1 ([] ++ ch) sess hlk]

theorem zipRun_honest (cnt : String → Bytes) (ks : List String) (out : String) (st0 : Store)
    (hlook : ∀ k ∈ ks, lookupKey k st0.objects = some (cnt k)) :
    (zipRun honest oneChunk ⟨ks, out, none, none⟩ st0).res =
      .ok ⟨(encode (ks.map (fun k => (basename k, cnt k)))).length, basename out⟩ ∧
    (zipRun honest oneChunk ⟨ks, out, none, none⟩ st0).s3.objects =
      (out, encode (ks.map (fun k => (basename k, cnt k)))) :: st0.objects := by
  simp only [zipRun]
  rw [honest_createMultipart]
  simp only []
  rw [downloadFiles_honest cnt ks
    { objects := st0.objects,
      sessions := (uidFor st0.nextId, ⟨out, []⟩) :: st0.sessions,
      nextId := st0.nextId + 1 } (fun k hk => hlook k hk)]
  simp only [oneChunk, Option.getD]
  rw [uploadParts_honest_single out defaultMaxPartSize
    (encode (ks.map (fun k => (basename k, cnt k))))
    { objects := st0.objects,
      sessions := (uidFor st0.nextId, ⟨out, []⟩) :: st0.sessions,
      nextId := st0.nextId + 1 }
    (uidFor st0.nextId) ⟨out, []⟩ (by simp [encode]) (by simp [lookupKey])]
  simp only []
  rw [honest_completeMultipart_some
    { objects := st0.objects,
      sessions := (uidFor st0.nextId, ⟨out, [] ++ [(1, etagFor 1,
          [] ++ encode (ks.map (fun k => (basename k, cnt k))))]⟩) ::
        (uidFor st0.nextId, ⟨out, []⟩) :: st0.sessions,
      nextId := st0.nextId + 1 }
    out (uidFor st0.nextId)
    ([] ++ [({ partNumber := 1, eTag := etagFor 1 } : CompletedPart)])
    ⟨out, [] ++ [(1, etagFor 1,
      [] ++ encode (ks.map (fun k => (basename k, cnt k))))]⟩
    (([] ++ encode (ks.map (fun k => (basename k, cnt k)))) ++ [])
    (by simp [lookupKey]) (by simp [assembleParts, findPart])]
  simp only []
  constructor
  · simp
  · simp

theorem entryUpload_honest_small (key : String) (mx : Nat) (content : Bytes) (st : Store)
    (hne : content ≠ []) (hlt : content.length < mx) :
    entryUpload honest key mx [content] st =
      ⟨{ st with objects := (key, content) :: st.objects },
       [S3Event.putObject key content], none, .ok content.length⟩ := by
  have hnl := entryLoop_noflush honest key mx [content] st ⟨0, [], none, [], 1⟩
    (by simpa using hlt)
  simp only [List.map_cons, List.map_nil, List.sum_cons, List.sum_nil, List.flatten_cons,
    List.flatten_nil, List.append_nil, List.nil_append, Nat.add_zero, Nat.zero_add] at hnl
  rcases content with _ | ⟨b0, bs⟩
  · exact absurd rfl hne
  simp only [entryUpload, hnl]
  simp only [entryFinish]
  rw [honest_putObject]
  simp only [List.nil_append]

theorem entryUpload_honest_one (key : String) (mx : Nat) (content : Bytes) (st : Store)
    (hne : content ≠ []) :
    (entryUpload honest key mx [content] st).res = .ok content.length ∧
    (entryUpload honest key mx [content] st).s3.objects = (key, content) :: st.objects := by
  by_cases hlt : content.length < mx
  · rw [entryUpload_honest_small key mx content st hne hlt]
    exact ⟨rfl, rfl⟩
  · push_neg at hlt
    simp only [entryUpload, entryLoop]
    rw [if_pos (by simpa using hlt)]
    simp only [entryFlush]
    rw [honest_createMultipart]
    simp only [entrySendPart]
    rw [honest_uploadPart_some
      { objects := st.objects,
        sessions := (uidFor st.nextId, ⟨key, []⟩) :: st.sessions,
        nextId := st.nextId + 1 }
      key (uidFor st.nextId) 1 ([] ++ content) ⟨key, []⟩ (by simp [lookupKey])]
    simp only [entryLoop]
    simp only [entryFinish]
    rw [honest_completeMultipart_some
      { objects := st.objects,
        sessions := (uidFor st.nextId, ⟨key, [] ++ [(1, etagFor 1, [] ++ content)]⟩) ::
          (uidFor st.nextId, ⟨key, []⟩) :: st.sessions,
        nextId := st.nextId + 1 }
      key (uidFor st.nextId)
      ([] ++ [({ partNumber := 1, eTag := etagFor 1 } : CompletedPart)])
      ⟨key, [] ++ [(1, etagFor 1, [] ++ content)]⟩ (([] ++ content) ++ [])
      (by simp [lookupKey]) (by simp [assembleParts, findPart])]
    constructor
    · simp
    · simp

theorem unzipEntries_honest (root : String) (mx : Nat) :
    ∀ (es : List (String × Bytes)) (st : Store) (ents : List (String × Option String))
      (keys : List String) (total : Nat),
    (∀ e ∈ es, e.2 ≠ []) →
    (unzipEntries honest oneChunk root mx es st ents keys total).2.2.2 =
      .ok (keys ++ es.map (fun e => root ++ "/" ++ e.1),
           total + (es.map (fun e => e.2.length)).sum) ∧
    (unzipEntries honest oneChunk root mx es st ents keys total).1.objects =
      (es.map (fun e => (root ++ "/" ++ e.1, e.2))).reverse ++ st.objects := by
  intro es
  induction es with
  | nil =>
    intro st ents keys total h
    simp [unzipEntries]
  | cons e es ih =>
    intro st ents keys total h
    rcases e with ⟨p, content⟩
    have hne := h (p, content) (by simp)
    have hone := entryUpload_honest_one (root ++ "/" ++ p) mx content st hne
    simp only [unzipEntries, oneChunk]
    rcases heo : entryUpload honest (root ++ "/" ++ p) mx [content] st
      with ⟨s3o, tro, uido, reso⟩
    rw [heo] at hone
    simp only at hone
    obtain ⟨hres, hobj⟩ := hone
    simp only [hres]
    have hrec := ih s3o (ents ++ [(root ++ "/" ++ p, uido)]) (keys ++ [root ++ "/" ++ p])
      (total + content.length) (fun e2 he2 => h e2 (by simp [he2]))
    rcases hrw : unzipEntries honest oneChunk root mx es s3o
        (ents ++ [(root ++ "/" ++ p, uido)]) (keys ++ [root ++ "/" ++ p])
        (total + content.length)
      with ⟨st2, tr2, ents2, r2⟩
    rw [hrw] at hrec
    simp only at hrec
    simp only [hrec.1, hrec.2, hobj]
    constructor
    · simp [List.append_assoc, Nat.add_assoc]
    · simp [List.append_assoc]

theorem lookupKey_append (k : String) (a b : List (String × Bytes)) :
    lookupKey k (a ++ b) =
      match lookupKey k a with
      | some v => some v
      | none => lookupKey k b := by
  induction a with
  | nil => simp [lookupKey]
  | cons p a ih =>
    rcases p with ⟨k2, v2⟩
    by_cases h : k2 = k
    · simp [lookupKey, h]
    · simp only [List.cons_append, lookupKey, if_neg h]
      exact ih

theorem lookupKey_none_of_not_mem (k : String) (a : List (String × Bytes))
    (h : k ∉ a.map Prod.fst) : lookupKey k a = none := by
  induction a with
  | nil => rfl
  | cons p a ih =>
    rcases p with ⟨k2, v2⟩
    simp only [List.map_cons, List.mem_cons] at h
    push_neg at h
    simp only [lookupKey]
    rw [if_neg (fun hh => h.1 hh.symm)]
    exact ih h.2

theorem lookupKey_reverse_nodup (rest : List (String × Bytes)) :
    ∀ (W : List (String × Bytes)), (W.map Prod.fst).Nodup →
    ∀ p ∈ W, lookupKey p.1 (W.reverse ++ rest) = some p.2 := by
  intro W
  induction W generalizing rest with
  | nil => intro _ p hp; simp at hp
  | cons w W ih =>
    intro hnd p hp
    rcases List.mem_cons.mp hp with h | h
    · subst h
      simp only [List.reverse_cons, List.append_assoc, List.singleton_append]
      rw [lookupKey_append]
      rw [lookupKey_none_of_not_mem p.1 W.reverse ?hnm]
      case hnm =>
        simp only [List.map_reverse, List.mem_reverse]
        simp only [List.map_cons, List.nodup_cons] at hnd
        exact hnd.1
      simp [lookupKey]
    · simp only [List.reverse_cons, List.append_assoc, List.singleton_append]
      simp only [List.map_cons, List.nodup_cons] at hnd
      exact ih (w :: rest) hnd.2 p h

theorem string_append_cancel_left (a : String) : ∀ b c : String, a ++ b = a ++ c → b = c := by
  intro b c h
  have h2 := congrArg String.data h
  rw [String.data_append a b, String.data_append a c] at h2
  have h3 := List.append_cancel_left h2
  cases b
  cases c
  exact congrArg String.mk h3

theorem unzipRun_honest (es : List (String × Bytes)) (inp root : String) (st : Store)
    (hlook : lookupKey inp st.objects = some (encode es))
    (hcond : ∀ e ∈ es, e.2 ≠ []) :
    (unzipRun honest oneChunk ⟨inp, root, none, none⟩ st).res =
      .ok ⟨es.map (fun e => stripLeadingSlash root ++ "/" ++ e.1),
           (es.map (fun e => e.2.length)).sum⟩ ∧
    (unzipRun honest oneChunk ⟨inp, root, none, none⟩ st).s3.objects =
      (es.map (fun e => (stripLeadingSlash root ++ "/" ++ e.1, e.2))).reverse ++
        st.objects := by
  simp only [unzipRun]
  rw [honest_getObject_some st inp (encode es) hlook]
  simp only []
  rw [decode_encode]
  simp only [Option.getD]
  have hu := unzipEntries_honest (stripLeadingSlash root) defaultMaxPartSize es st [] [] 0
    hcond
  rcases hrw : unzipEntries honest oneChunk (stripLeadingSlash root) defaultMaxPartSize
      es st [] [] 0 with ⟨st2, tr2, ents, r2⟩
  rw [hrw] at hu
  simp only at hu
  obtain ⟨h1, h2⟩ := hu
  simp only []
  rw [h1]
  simp only []
  constructor
  · simp
  · rw [h2]

/-- C7 counterexample: two failures of the claimed round trip.  With two
source objects `a/x = [1]` and `b/x = [2]` sharing the basename `x`, zip
then unzip both succeed, but both entries extract to the same output key
`out/x`, whose final content `[2]` is not the first source object's
content `[1]` — the round trip silently loses `a/x`'s bytes.  And with the
single empty source object `a/e = []`, zip and unzip again both succeed
and report the extracted key `out/e`, yet no object is ever written there:
the extracted content is absent, not equal to the source's `[]`. -/
theorem c7_counterexample :
    zipDup.res = .ok ⟨9, "o.zip"⟩ ∧
    unzipDup.res = .ok ⟨["out/x", "out/x"], 2⟩ ∧
    lookupKey "out/x" unzipDup.s3.objects = some [2] ∧
    lookupKey "a/x" storeDup.objects = some [1] ∧
    unzipE.res = .ok ⟨["out/e"], 0⟩ ∧
    lookupKey "out/e" unzipE.s3.objects = none ∧
    lookupKey "a/e" storeE.objects = some [] :=
  ⟨rfl, rfl, by decide, by decide, rfl, by decide, by decide⟩

/-- C7 amended: against the honest store, zip-then-unzip round-trips for
every non-empty list of source keys whose basenames are pairwise distinct
and whose objects are present and non-empty: zip succeeds, unzip succeeds,
the extracted keys are exactly the output root joined with each input's
basename in order, and each extracted object's final content equals the
corresponding source object's content.  (Distinct basenames are forced by
the duplicate-basename collision and non-emptiness by the vanishing empty
entry, both exhibited in the counterexample; no size restriction is
needed — archives and entries crossing `maxPartSize` round-trip through
the multipart path.) -/
theorem c7_amended (cnt : String → Bytes) (ks : List String) (out root : String)
    (st0 : Store)
    (hk : ks ≠ [])
    (hlook : ∀ k ∈ ks, lookupKey k st0.objects = some (cnt k))
    (hne : ∀ k ∈ ks, cnt k ≠ [])
    (hnodup : (ks.map basename).Nodup) :
    (zipRun honest oneChunk ⟨ks, out, none, none⟩ st0).res =
      .ok ⟨(encode (ks.map (fun k => (basename k, cnt k)))).length, basename out⟩ ∧
    (unzipRun honest oneChunk ⟨out, root, none, none⟩
        (zipRun honest oneChunk ⟨ks, out, none, none⟩ st0).s3).res =
      .ok ⟨ks.map (fun k => stripLeadingSlash root ++ "/" ++ basename k),
           (ks.map (fun k => (cnt k).length)).sum⟩ ∧
    (∀ k ∈ ks, lookupKey (stripLeadingSlash root ++ "/" ++ basename k)
        (unzipRun honest oneChunk ⟨out, root, none, none⟩
          (zipRun honest oneChunk ⟨ks, out, none, none⟩ st0).s3).s3.objects =
      some (cnt k)) := by
  obtain ⟨hzres, hzobj⟩ := zipRun_honest cnt ks out st0 hlook
  have hcond : ∀ e ∈ ks.map (fun k => (basename k, cnt k)), e.2 ≠ [] := by
    intro e he
    obtain ⟨k, hk2, hek⟩ := List.mem_map.mp he
    subst hek
    exact hne k hk2
  have hlk2 : lookupKey out (zipRun honest oneChunk ⟨ks, out, none, none⟩ st0).s3.objects =
      some (encode (ks.map (fun k => (basename k, cnt k)))) := by
    rw [hzobj]
    simp [lookupKey]
  obtain ⟨hures, huobj⟩ := unzipRun_honest (ks.map (fun k => (basename k, cnt k))) out root
    (zipRun honest oneChunk ⟨ks, out, none, none⟩ st0).s3 hlk2 hcond
  refine ⟨hzres, ?_, ?_⟩
  · rw [hures]
    simp [List.map_map, Function.comp_def]
  · intro k hkmem
    rw [huobj]
    have hmem : ((stripLeadingSlash root ++ "/" ++ basename k, cnt k) : String × Bytes) ∈
        (ks.map (fun k => (basename k, cnt k))).map
          (fun e => (stripLeadingSlash root ++ "/" ++ e.1, e.2)) := by
      rw [List.map_map]
      exact List.mem_map.mpr ⟨k, hkmem, rfl⟩
    have hnd2 : (((ks.map (fun k => (basename k, cnt k))).map
        (fun e => (stripLeadingSlash root ++ "/" ++ e.1, e.2))).map Prod.fst).Nodup := by
      have heq : (((ks.map (fun k => (basename k, cnt k))).map
          (fun e => (stripLeadingSlash root ++ "/" ++ e.1, e.2))).map Prod.fst) =
          (ks.map basename).map (fun b => stripLeadingSlash root ++ "/" ++ b) := by
        simp [List.map_map, Function.comp_def]
      rw [heq]
      exact hnodup.map (fun b1 b2 hb => string_append_cancel_left _ b1 b2 hb)
    exact lookupKey_reverse_nodup _ _ hnd2 _ hmem

/-- C7 amended witness: on the concrete store `storeAB` with inputs
`dir/a = [1,2,3]` and `dir/b = [4,5]`, zip to `out/archive.zip` and unzip
under root `ex` both succeed, the extracted keys are `ex/a` and `ex/b`,
and both extracted contents equal their sources. -/
theorem c7_amended_witness :
    zipRunAB.res = .ok ⟨12, "archive.zip"⟩ ∧
    unzipRunAB.res = .ok ⟨["ex/a", "ex/b"], 5⟩ ∧
    lookupKey "ex/a" unzipRunAB.s3.objects = some [1, 2, 3] ∧
    lookupKey "ex/b" unzipRunAB.s3.objects = some [4, 5] := by
  have h := c7_amended (fun k => if k = "dir/a" then [1, 2, 3] else [4, 5])
    ["dir/a", "dir/b"] "out/archive.zip" "ex" storeAB (by decide)
    (by decide) (by decide) (by decide)
  exact ⟨h.1, h.2.1, h.2.2 "dir/a" (by decide), h.2.2 "dir/b" (by decide)⟩

/-- C3 amended: on the zip path the multipart session is created eagerly,
not lazily — in every run `createMultipartUpload` for the output key is
the very first client call — and the zip path never performs a direct
object write: even an archive smaller than one part is persisted as a
one-part multipart upload, never by `putObject`. -/
theorem c3_amended (c : S3Client σ) (f : Bytes → List Bytes) (opts : S3ArchiverOptions)
    (st0 : σ) :
    (zipRun c f opts st0).trace.head? =
      some (S3Event.createMultipart opts.outputKey) ∧
    (∀ e ∈ (zipRun c f opts st0).trace, isPut e = false) := by
  simp only [zipRun]
  rcases hc : c.createMultipart st0 opts.outputKey with ⟨rc, st1⟩
  match rc with
  | .error e0 =>
    simp only []
    rcases hz : zipCancel c opts.outputKey none st1 e0 with ⟨st2, tr, e2⟩
    have hnp := zipCancel_no_put c opts.outputKey none st1 e0
    rw [hz] at hnp
    simp only at hnp
    refine ⟨rfl, ?_⟩
    intro ev hev
    rcases List.mem_cons.mp hev with h | h
    · subst h; rfl
    · exact hnp ev h
  | .ok none =>
    simp only []
    rcases hz : zipCancel c opts.outputKey none st1 "Failed to create multipart upload"
      with ⟨st2, tr, e2⟩
    have hnp := zipCancel_no_put c opts.outputKey none st1 "Failed to create multipart upload"
    rw [hz] at hnp
    simp only at hnp
    refine ⟨rfl, ?_⟩
    intro ev hev
    rcases List.mem_cons.mp hev with h | h
    · subst h; rfl
    · exact hnp ev h
  | .ok (some uid) =>
    simp only []
    have hdlnp := downloadFiles_no_put c opts.inputKeys st1
    rcases hdl : (downloadFiles c opts.inputKeys st1).res with e0 | entries
    · simp only []
      rcases hz : zipCancel c opts.outputKey (some uid) (downloadFiles c opts.inputKeys st1).s3
          e0 with ⟨st2, tr, e2⟩
      have hnp := zipCancel_no_put c opts.outputKey (some uid)
        (downloadFiles c opts.inputKeys st1).s3 e0
      rw [hz] at hnp
      simp only at hnp
      refine ⟨rfl, ?_⟩
      intro ev hev
      rcases List.mem_cons.mp hev with h | h
      · subst h; rfl
      rcases List.mem_append.mp h with h2 | h2
      · exact hdlnp ev h2
      · exact hnp ev h2
    · simp only []
      have hupnp := uploadParts_no_put c opts.outputKey
        (opts.maxPartSize.getD defaultMaxPartSize) (f (encode entries)) []
        (downloadFiles c opts.inputKeys st1).s3 ⟨some uid, 1, []⟩ 0
      rcases hup : uploadParts c opts.outputKey (opts.maxPartSize.getD defaultMaxPartSize)
          (f (encode entries)) [] (downloadFiles c opts.inputKeys st1).s3 ⟨some uid, 1, []⟩ 0
        with ⟨ups3, uptr, upm, upsz, upres⟩
      rw [hup] at hupnp
      simp only at hupnp
      match upres with
      | .error e0 =>
        simp only []
        rcases hz : zipCancel c opts.outputKey (some uid) ups3 e0 with ⟨st2, tr, e2⟩
        have hnp := zipCancel_no_put c opts.outputKey (some uid) ups3 e0
        rw [hz] at hnp
        simp only at hnp
        refine ⟨rfl, ?_⟩
        intro ev hev
        rcases List.mem_cons.mp hev with h | h
        · subst h; rfl
        rcases List.mem_append.mp h with h2 | h2
        · exact hdlnp ev h2
        rcases List.mem_append.mp h2 with h3 | h3
        · exact hupnp ev h3
        · exact hnp ev h3
      | .ok () =>
        simp only []
        rcases hcm : c.completeMultipart ups3 opts.outputKey uid upm.completedParts
          with ⟨rcm, st2⟩
        match rcm with
        | .error e0 =>
          simp only []
          rcases hz : zipCancel c opts.outputKey (some uid) st2 e0 with ⟨st3, tr, e2⟩
          have hnp := zipCancel_no_put c opts.outputKey (some uid) st2 e0
          rw [hz] at hnp
          simp only at hnp
          refine ⟨rfl, ?_⟩
          intro ev hev
          rcases List.mem_cons.mp hev with h | h
          · subst h; rfl
          rcases List.mem_append.mp h with h2 | h2
          · exact hdlnp ev h2
          rcases List.mem_append.mp h2 with h3 | h3
          · exact hupnp ev h3
          rcases List.mem_cons.mp h3 with h4 | h4
          · subst h4; rfl
          · exact hnp ev h4
        | .ok () =>
          simp only []
          refine ⟨rfl, ?_⟩
          intro ev hev
          rcases List.mem_cons.mp hev with h | h
          · subst h; rfl
          rcases List.mem_append.mp h with h2 | h2
          · exact hdlnp ev h2
          rcases List.mem_append.mp h2 with h3 | h3
          · exact hupnp ev h3
          rcases List.mem_singleton.mp h3 with h4
          subst h4; rfl

/-- C3 amended witness: in the concrete run `zipRunAB` the first client
call is the session creation, and a sample event of its trace is not a
direct object write. -/
theorem c3_amended_witness :
    zipRunAB.trace.head? = some (S3Event.createMultipart "out/archive.zip") ∧
    isPut (S3Event.getObject "dir/a") = false :=
  ⟨(c3_amended honest oneChunk zipOptsAB storeAB).1,
   (c3_amended honest oneChunk zipOptsAB storeAB).2 (S3Event.getObject "dir/a") (by decide)⟩
